import Mathlib

/-!
Shallow embedding of `KBANN.py` (rule rewriting, rule layering, network
synthesis, weight clustering, structural augmentation, rule extraction),
together with theorems settling the specification's claims about it.

Real numbers of the Python source (numpy float64) are modelled as `ℚ`;
every arithmetic operation the claims exercise (multiplication by the
constant ω = 4, subtraction of 0.5, averaging of small integer weights)
is exact in float64, so the rational model is faithful on those values.
-/

namespace KBANN

/-- The fixed connection weight ω (`DEFAULT_WEIGHT = 4.0` in the source). -/
def omega : ℚ := 4

/-- A literal: predicate name plus negation flag (`class Literal`). -/
structure Literal where
  name : String
  negated : Bool
  deriving DecidableEq, Repr

/-- A rule: consequent head and ordered body literals (`class Rule`). -/
structure Rule where
  head : Literal
  body : List Literal
  deriving DecidableEq, Repr

/-- Append an element unless already present, modelling the Python idiom
`if x not in acc: acc.append(x)`. -/
def insertNew (acc : List String) (x : String) : List String :=
  if x ∈ acc then acc else acc ++ [x]

/-- Left fold of `insertNew` over a list, modelling a Python
append-if-absent loop. -/
def dedupAppend (acc : List String) (xs : List String) : List String :=
  xs.foldl insertNew acc

/-- `get_antecedents`: the distinct body-literal names of a rule list, in
order of first appearance. -/
def get_antecedents (rules : List Rule) : List String :=
  rules.foldl (fun acc r => dedupAppend acc (r.body.map Literal.name)) []

/-- `get_consequents`: the distinct head names of a rule list, in order of
first appearance. -/
def get_consequents (rules : List Rule) : List String :=
  rules.foldl (fun acc r => insertNew acc r.head.name) []

/-- Number of rules of `rules` whose head is named `h`: the occurrence
dictionary built at the top of `rewrite_rules` and inside `rule_to_network`. -/
def headCount (rules : List Rule) (h : String) : Nat :=
  rules.countP (fun r => r.head.name == h)

/-- The fresh intermediate literal `Literal(rule.head.name + str(i))`
created by `rewrite_rules` for counter value `i`. -/
def freshLit (r : Rule) (i : Nat) : Literal :=
  ⟨r.head.name ++ toString i, false⟩

/-- The two rules `H :- H'` and `H' :- B` that `rewrite_rules` appends for a
multiply-defined rule `H :- B`, with counter value `i`. -/
def rewritePair (r : Rule) (i : Nat) : List Rule :=
  [⟨r.head, [freshLit r i]⟩, ⟨freshLit r i, r.body⟩]

/-- The loop of `rewrite_rules`: walk the snapshot `ruleset[:]`, keep each
rule whose head occurs once (per the precomputed occurrence map `d`,
removing it from the working list otherwise), and for each multiply-defined
rule append its `rewritePair` with the running counter `i`.  Returns the
pair (rules left in `ruleset`, `rewritten_rules`). -/
def rewriteGo (d : String → Nat) : List Rule → Nat → List Rule × List Rule
  | [], _ => ([], [])
  | r :: rs, i =>
    if 1 < d r.head.name then
      let p := rewriteGo d rs (i + 1)
      (p.1, rewritePair r i ++ p.2)
    else
      let p := rewriteGo d rs i
      (r :: p.1, p.2)

/-- `rewrite_rules`: Towell's rewriting; the counter is seeded at
`len(ruleset)` and the function returns `ruleset + rewritten_rules`. -/
def rewrite_rules (ruleset : List Rule) : List Rule :=
  let p := rewriteGo (headCount ruleset) ruleset ruleset.length
  p.1 ++ p.2

/-- The input rules whose head occurs once: these stay in the working list
of `rewrite_rules` and pass through unchanged. -/
def keptRules (ruleset : List Rule) : List Rule :=
  ruleset.filter (fun r => !(1 < headCount ruleset r.head.name : Bool))

/-- The input rules whose head occurs more than once: these are removed and
replaced by `rewritePair`s. -/
def multiRules (ruleset : List Rule) : List Rule :=
  ruleset.filter (fun r => (1 < headCount ruleset r.head.name : Bool))

/-- The names of the fresh intermediate literals `rewrite_rules` creates:
the j-th multiply-headed rule gets `head.name ++ toString (n + j)` where
`n` is the input length. -/
def freshNames (ruleset : List Rule) : List String :=
  ((multiRules ruleset).enumFrom ruleset.length).map
    (fun p => (freshLit p.2 p.1).name)

/-- The two-rule disjunction `A :- B, C.` / `A :- D, E.` from the
rewriter's own docstring. -/
def exampleC5 : List Rule :=
  [⟨⟨"A", false⟩, [⟨"B", false⟩, ⟨"C", false⟩]⟩,
   ⟨⟨"A", false⟩, [⟨"D", false⟩, ⟨"E", false⟩]⟩]

/-- One extraction pass of the layering loop in `rule_to_network`: iterate
over the snapshot `copied_rules[:]`, appending to the layer each rule whose
head is not among the precomputed antecedent names `ants` and removing it
from the working list.  Returns (extracted layer, remaining rules). -/
def extractLayer (ants : List String) : List Rule → List Rule × List Rule
  | [] => ([], [])
  | r :: rs =>
    let p := extractLayer ants rs
    if r.head.name ∈ ants then (p.1, r :: p.2) else (r :: p.1, p.2)

/-- The frontier extracted by one pass of the layering loop. -/
def frontierOf (rules : List Rule) : List Rule :=
  (extractLayer (get_antecedents rules) rules).1

/-- The remaining working list after one pass of the layering loop. -/
def layerStep (rules : List Rule) : List Rule :=
  (extractLayer (get_antecedents rules) rules).2

/-- The layering loop of `rule_to_network`, producing layers in processing
order (outputs toward inputs, before the final reversal).  The source
branches on `l == 0` to choose between the antecedents of `copied_rules`
and of the last layer, but `l` is never incremented, so every pass
recomputes the antecedents of the remaining rules; the model reflects
that.  The Python `while` loop has no fuel: when a pass extracts nothing
the working list is unchanged and the loop never exits; the fuel makes
the model total while preserving every finite prefix of that
behaviour. -/
def layersAux : Nat → List Rule → List (List Rule)
  | 0, _ => []
  | fuel + 1, rules =>
    if rules.isEmpty then []
    else frontierOf rules :: layersAux fuel (layerStep rules)

/-- Remaining working list after `k` passes of the layering loop. -/
def remainingAfter (rules : List Rule) : Nat → List Rule
  | 0 => rules
  | k + 1 => layerStep (remainingAfter rules k)

/-- The acyclic chain `C :- B.  B :- A.`, layered in two passes. -/
def exampleChainCB : Rule := ⟨⟨"C", false⟩, [⟨"B", false⟩]⟩

/-- Second rule of the acyclic chain example. -/
def exampleChainBA : Rule := ⟨⟨"B", false⟩, [⟨"A", false⟩]⟩

/-- The acyclic two-rule chain rule set. -/
def exampleChain : List Rule := [exampleChainCB, exampleChainBA]

/-- The cyclic rule set `A :- B.  B :- A.`. -/
def cyclicExample : List Rule :=
  [⟨⟨"A", false⟩, [⟨"B", false⟩]⟩, ⟨⟨"B", false⟩, [⟨"A", false⟩]⟩]

/-- Row-major rational matrix, modelling a 2-D numpy float64 array. -/
abbrev Mat := List (List ℚ)

/-- The all-zero matrix `np.zeros([r, c])`. -/
def zerosMat (r c : Nat) : Mat :=
  List.replicate r (List.replicate c 0)

/-- Read `m[i][j]`, defaulting to 0 out of bounds (all source reads are in
bounds). -/
def getCell (m : Mat) (i j : Nat) : ℚ :=
  (m.getD i []).getD j 0

/-- Write `m[i][j] = v` (no-op out of bounds; all source writes are in
bounds). -/
def setCell (m : Mat) (i j : Nat) (v : ℚ) : Mat :=
  m.set i ((m.getD i []).set j v)

/-- Apply a sequence of single-cell writes in order. -/
def applyWrites (m : Mat) (ws : List (Nat × Nat × ℚ)) : Mat :=
  ws.foldl (fun m w => setCell m w.1 w.2.1 w.2.2) m

/-- The input-layer name list of one synthesis iteration: the carried
`last_layer` extended by the layer's antecedent names not already present
(`for unit in current_layer: if unit not in last_layer: last_layer.append`,
then `current_layer = last_layer.copy()`). -/
def curLayer (last : List String) (rl : List Rule) : List String :=
  dedupAppend last (get_antecedents rl)

/-- The weight writes performed by the synthesis loop of `rule_to_network`
for one rule layer: for each rule, for each body literal, write `-ω` if
the literal is negated and `+ω` otherwise, at row = index of the literal
name in `cur` and column = index of the rule head in `next`. -/
def weightWrites (cur next : List String) (rules : List Rule) :
    List (Nat × Nat × ℚ) :=
  rules.flatMap (fun r =>
    r.body.map (fun lit =>
      (cur.indexOf lit.name, next.indexOf r.head.name,
        if lit.negated then -omega else omega)))

/-- The weight matrix of one rule layer after the synthesis loop. -/
def fillWeight (cur next : List String) (rules : List Rule) : Mat :=
  applyWrites (zerosMat cur.length next.length) (weightWrites cur next rules)

/-- The bias writes performed by the synthesis loop for one rule layer:
`0.5·ω` when the head occurs more than once in the layer (disjunctive),
`(p − 0.5)·ω` with `p` the body length otherwise (conjunctive). -/
def biasWrites (next : List String) (rules : List Rule) : List (Nat × ℚ) :=
  rules.map (fun r =>
    (next.indexOf r.head.name,
      if 1 < headCount rules r.head.name then (1 / 2) * omega
      else ((r.body.length : ℚ) - 1 / 2) * omega))

/-- The bias vector of one rule layer after the synthesis loop. -/
def fillBias (next : List String) (rules : List Rule) : List ℚ :=
  (biasWrites next rules).foldl (fun b w => b.set w.1 w.2)
    (List.replicate next.length 0)

/-- One iteration of the synthesis loop of `rule_to_network`: given the
carried `last_layer` and the rule layer, produce (current input-layer
names, output-layer names, weight matrix, bias vector). -/
def synthLayer (last : List String) (rl : List Rule) :
    List String × List String × Mat × List ℚ :=
  (curLayer last rl, get_consequents rl,
   fillWeight (curLayer last rl) (get_consequents rl) rl,
   fillBias (get_consequents rl) rl)

/-- The synthesis loop over all rule layers, carrying `last_layer` and
collecting `weights`, `biases` and the flattened `layers` name stack
`[inputs_0, outputs_0, inputs_1, outputs_1, ...]`. -/
def synthAll : List (List Rule) → List String →
    List Mat × List (List ℚ) × List (List String)
  | [], _ => ([], [], [])
  | rl :: rest, last =>
    match synthLayer last rl with
    | (cur, next, w, b) =>
      match synthAll rest next with
      | (ws, bs, ls) => (w :: ws, b :: bs, cur :: next :: ls)

/-- `rule_to_network`: the layering loop followed by the synthesis loop.
Biases are modelled as flat vectors; the source wraps each in a 1×k array
`np.array([bias])`. -/
def rule_to_network (ruleset : List Rule) :
    List Mat × List (List ℚ) × List (List String) :=
  synthAll ((layersAux ruleset.length ruleset).reverse) []

/-- The singleton rule layer and empty carried layer of the toy example,
used to witness `synth_weight_bias_spec`. -/
def toyRule : Rule := ⟨⟨"Target", false⟩, [⟨"A", false⟩, ⟨"B", false⟩]⟩

/-- `list(set(ids))` for the small non-negative cluster ids arising here:
CPython iterates a set of small ints in ascending hash-slot order, so the
model returns the distinct ids in ascending order. -/
def uniqueSorted (ids : List Nat) : List Nat :=
  List.insertionSort (· ≤ ·) ids.dedup

/-- The 1-D Gaussian-mixture collaborator of `cluster_weights`: for a
requested component count and sample list, `bic` scores the fitted model
and `predict` assigns a component id to each sample.  sklearn's EM fit is
stochastic, so theorems quantify over all oracles. -/
structure GMMOracle where
  bic : Nat → List ℚ → ℚ
  predict : Nat → List ℚ → List Nat

/-- The BIC model-selection loop of `cluster_weights`: over component
counts `range(2, n)`, track `lowest_bic` (seeded with `np.infty`, so the
first candidate always wins) and `best_gmm`; strict `<` keeps the first
minimum. -/
def chooseComponents (o : GMMOracle) (links : List ℚ) (n : Nat) : Nat :=
  match (List.range' 2 (n - 2)).foldl
      (fun acc k =>
        match acc with
        | none => some (o.bic k links, k)
        | some p =>
          if o.bic k links < p.1 then some (o.bic k links, k) else some p)
      none with
  | some p => p.2
  | none => 0

/-- One masked in-place assignment `links[ids == c] = v`. -/
def maskAssign (ls : List ℚ) (ids : List Nat) (c : Nat) (v : ℚ) : List ℚ :=
  (ls.zip ids).map (fun p => if p.2 = c then v else p.1)

/-- The masked selection `links[ids == c]`. -/
def selOf (ls : List ℚ) (ids : List Nat) (c : Nat) : List ℚ :=
  ((ls.zip ids).filter (fun p => p.2 = c)).map (fun p => p.1)

/-- The cluster average `np.sum(links[indices]) / len(links[indices])`. -/
def clusterMean (ls : List ℚ) (ids : List Nat) (c : Nat) : ℚ :=
  (selOf ls ids c).sum / ((selOf ls ids c).length : ℚ)

/-- The averaging loop of `cluster_weights`: for each unique cluster id,
compute the mean of the current weights in that cluster and assign it to
all of them (clusters are disjoint, so each position is written once and
the mean is taken over original values). -/
def avgLoop (ids : List Nat) : List ℚ → List Nat → List ℚ
  | ls, [] => ls
  | ls, c :: cs => avgLoop ids (maskAssign ls ids c (clusterMean ls ids c)) cs

set_option linter.unusedVariables false in
/-- `cluster_weights`: cluster one weight column.  More than 2 entries:
fit mixtures for component counts `2 .. n − 1`, keep the BIC-best, assign
ids and average within clusters.  Exactly 2: two singleton clusters
`[0, 1]` without fitting.  Fewer: `np.zeros(n)` ids.  The `threshold`
argument (the unit's bias) is accepted and never used, as in the source. -/
def cluster_weights (o : GMMOracle) (links : List ℚ) (threshold : ℚ) :
    List ℚ × List Nat :=
  let n := links.length
  if 2 < n then
    let ids := o.predict (chooseComponents o links n) links
    (avgLoop ids links (uniqueSorted ids), ids)
  else if n = 2 then (links, [0, 1])
  else (links, List.replicate n 0)

/-- Column `j` of a matrix (`m[:, j]`). -/
def column (m : Mat) (j : Nat) : List ℚ :=
  m.map (fun row => row.getD j 0)

/-- Overwrite column `j` of a matrix (`m[:, j] = v`; `v` has one entry per
row at every call site). -/
def setColumn (m : Mat) (j : Nat) (v : List ℚ) : Mat :=
  (m.zip v).map (fun p => p.1.set j p.2)

/-- Number of columns of a matrix (`m.shape[1]`; numpy arrays are
rectangular, so the first row's length is the shape). -/
def cols (m : Mat) : Nat :=
  (m.headD []).length

/-- One iteration of the per-matrix loop of `eliminate_weights`: cluster
column `j` of the current matrix against its bias, write the averaged
column back and append its cluster ids. -/
def elimStep (o : GMMOracle) (bvec : List ℚ)
    (acc : Mat × List (List Nat)) (j : Nat) : Mat × List (List Nat) :=
  (setColumn acc.1 j (cluster_weights o (column acc.1 j) (bvec.getD j 0)).1,
   acc.2 ++ [(cluster_weights o (column acc.1 j) (bvec.getD j 0)).2])

/-- The per-matrix loop of `eliminate_weights`: cluster each column
against its bias and write the averaged column back. -/
def elimMat (o : GMMOracle) (m : Mat) (bvec : List ℚ) :
    Mat × List (List Nat) :=
  (List.range (cols m)).foldl (elimStep o bvec) (m, [])

/-- `eliminate_weights`: cluster every column of every weight matrix,
collecting per-unit cluster ids; biases pass through unchanged. -/
def eliminate_weights (o : GMMOracle) (weights : List Mat)
    (biases : List (List ℚ)) :
    List Mat × List (List ℚ) × List (List (List Nat)) :=
  ((weights.zip biases).map (fun p => (elimMat o p.1 p.2).1), biases,
   (weights.zip biases).map (fun p => (elimMat o p.1 p.2).2))

/-- Python's `str()` of the float64 values arising in extracted rules:
integers render as `n.0`, half-integers as `n.5`; any other rational
(which float64 would print as a long decimal) falls back to an exact
fraction rendering, a branch no claim exercises. -/
def pyFloatStr (q : ℚ) : String :=
  if q.den = 1 then
    (if q.num < 0 then "-" ++ toString (-q.num) else toString q.num) ++ ".0"
  else if q.den = 2 then
    if q.num < 0 then "-" ++ toString (-q.num / 2) ++ ".5"
    else toString (q.num / 2) ++ ".5"
  else toString q.num ++ "/" ++ toString q.den

/-- The string of one cluster's term, `<weight> * nt(<antecedents>)`:
member positions are the enumerated matches of `ids == id`, the rendered
weight is the first matched entry of the column (0 if none), and the
antecedent names are comma-joined. -/
def termString (cur : List String) (w : List ℚ) (ids : List Nat)
    (id : Nat) : String :=
  let matched := (ids.enum.filter (fun p => p.2 = id)).map (fun p => p.1)
  pyFloatStr ((matched.map (fun idx => w.getD idx 0)).headD 0) ++
    " * nt(" ++
    String.intercalate "," (matched.map (fun idx => cur.getD idx "")) ++ ")"

/-- The `zip(weight_range, layer_range)` pairs of `network_to_rule`:
`range(len(weights))` zipped with `range(0, len(layers), 2)`; `zip`
truncates to the shorter sequence. -/
def layerPairs (nw nl : Nat) : List (Nat × Nat) :=
  (List.range nw).zip ((List.range ((nl + 1) / 2)).map (fun k => 2 * k))

/-- `network_to_rule`: per layer transition and output unit, build
`head :- bias < term + ... + term` with one term per distinct cluster id
(ids iterated in `list(set(...))` order, ascending for small ints), the
`" + "` separator inserted whenever the accumulated body is non-empty. -/
def network_to_rule (weights : List Mat) (biases : List (List ℚ))
    (cluster_indices : List (List (List Nat)))
    (layers : List (List String)) : List String :=
  (layerPairs weights.length layers.length).flatMap (fun il =>
    (List.range (cols (weights.getD il.1 []))).map (fun j =>
      (layers.getD (il.2 + 1) []).getD j "" ++ " :- " ++
        pyFloatStr ((biases.getD il.1 []).getD j 0) ++ " < " ++
        (uniqueSorted ((cluster_indices.getD il.1 []).getD j [])).foldl
          (fun body id =>
            (if body ≠ "" then body ++ " + " else body) ++
              termString (layers.getD il.2 [])
                (column (weights.getD il.1 []) j)
                ((cluster_indices.getD il.1 []).getD j []) id)
          ""))

/-- A concrete mixture oracle for running the pipeline on inputs whose
columns never reach the fitting branch. -/
def trivOracle : GMMOracle :=
  ⟨fun _ _ => 0, fun _ l => List.replicate l.length 0⟩

/-- A concrete mixture oracle with a non-trivial `predict`, used to
witness `clustering_spec`. -/
def witOracle : GMMOracle :=
  ⟨fun k _ => (k : ℚ), fun k l => List.replicate l.length (k % 2)⟩

/-- Python runtime errors surfaced by the augmentation helpers: an
unhandled `ValueError` from `list.remove` on an absent element, and an
`IndexError` from subscripting a too-short list. -/
inductive PyErr where
  | valueError
  | indexError
  deriving DecidableEq, Repr

/-- `list.remove`: drop the first occurrence, or fail (`ValueError`). -/
def removeFirst : List String → String → Option (List String)
  | [], _ => none
  | x :: xs, u =>
    if x = u then some xs
    else
      match removeFirst xs u with
      | some ys => some (x :: ys)
      | none => none

/-- The removal loop of `add_input_units`: for every unit of every layer
(in order), if the unit is a feature name, remove it from the working
copy of the feature list; a second removal of the same name raises
`ValueError`. -/
def removeSeen (feature_names : List String) :
    List String → List String → Except PyErr (List String)
  | acc, [] => .ok acc
  | acc, u :: us =>
    if u ∈ feature_names then
      match removeFirst acc u with
      | some acc2 => removeSeen feature_names acc2 us
      | none => .error .valueError
    else removeSeen feature_names acc us

/-- `add_input_units`: remove every layer-referenced feature name from a
copy of the feature list, then append the remaining names to the first
layer and the matching block of zero rows to the first weight matrix. -/
def add_input_units (weights : List Mat) (layers : List (List String))
    (feature_names : List String) :
    Except PyErr (List Mat × List (List String)) :=
  match removeSeen feature_names feature_names layers.flatten with
  | .error e => .error e
  | .ok additional =>
    match weights, layers with
    | w :: wr, l0 :: lr =>
      .ok ((w ++ zerosMat additional.length (cols w)) :: wr,
           (l0 ++ additional) :: lr)
    | _, _ => .error .indexError

/-- `add_hidden_units`: widen `weights[0]` by 3 zero columns, stack the
hardcoded `np.zeros((3, 1))` under `weights[1]` (a shape error unless
`weights[1]` has exactly one column), append 3 zero bias entries to
`biases[0]`, and append `head1..head3` to `layers[1]` and `layers[2]`.
`none` models the unhandled `IndexError`/`ValueError` exceptions. -/
def add_hidden_units (weights : List Mat) (biases : List (List ℚ))
    (layers : List (List String)) :
    Option (List Mat × List (List ℚ) × List (List String)) :=
  match weights[0]?, weights[1]?, biases[0]?, layers[1]?, layers[2]? with
  | some w1, some w2, some b, some l1, some l2 =>
    if cols w2 = 1 then
      some
        ((weights.set 0 (w1.map (fun row => row ++ [0, 0, 0]))).set 1
          (w2 ++ zerosMat 3 1),
         biases.set 0 (b ++ [0, 0, 0]),
         (layers.set 1 (l1 ++ ["head1", "head2", "head3"])).set 2
           (l2 ++ ["head1", "head2", "head3"]))
    else none
  | _, _, _, _, _ => none

/-- Modelled from the spec's rule shape: terms joined by `" + "`. -/
def joinPlus : List String → String
  | [] => ""
  | [s] => s
  | s :: ss => s ++ " + " ++ joinPlus ss

/-- The suffix a non-empty accumulated body gains from further terms. -/
def joinPlusTail : List String → String
  | [] => ""
  | t :: ts => " + " ++ t ++ joinPlusTail ts

/-- Modelled from the spec: the rule string of one output unit,
`Head :- bias < clusterWeight * nt(...) + ...`, with one term per
distinct cluster id. -/
def specUnitRule (weights : List Mat) (biases : List (List ℚ))
    (cluster_indices : List (List (List Nat))) (layers : List (List String))
    (i l j : Nat) : String :=
  (layers.getD (l + 1) []).getD j "" ++ " :- " ++
    pyFloatStr ((biases.getD i []).getD j 0) ++ " < " ++
    joinPlus
      ((uniqueSorted ((cluster_indices.getD i []).getD j [])).map
        (termString (layers.getD l []) (column (weights.getD i []) j)
          ((cluster_indices.getD i []).getD j [])))

theorem mem_insertNew (acc : List String) (x a : String) :
    a ∈ insertNew acc x ↔ a ∈ acc ∨ a = x := by
  unfold insertNew
  by_cases h : x ∈ acc
  · simp only [if_pos h]
    constructor
    · exact fun ha => Or.inl ha
    · rintro (ha | rfl)
      · exact ha
      · exact h
  · simp [if_neg h]

theorem mem_dedupAppend (acc xs : List String) (a : String) :
    a ∈ dedupAppend acc xs ↔ a ∈ acc ∨ a ∈ xs := by
  induction xs generalizing acc with
  | nil => simp [dedupAppend]
  | cons x xs ih =>
    show a ∈ dedupAppend (insertNew acc x) xs ↔ _
    rw [ih, mem_insertNew]
    simp only [List.mem_cons]
    tauto

theorem mem_get_antecedents_fold (rules : List Rule) (acc : List String)
    (a : String) :
    a ∈ rules.foldl (fun acc r => dedupAppend acc (r.body.map Literal.name)) acc ↔
      a ∈ acc ∨ ∃ r ∈ rules, ∃ l ∈ r.body, l.name = a := by
  induction rules generalizing acc with
  | nil => simp
  | cons r rules ih =>
    show (a ∈ List.foldl _ (dedupAppend acc (r.body.map Literal.name)) rules) ↔ _
    rw [ih, mem_dedupAppend]
    simp only [List.mem_map, List.mem_cons]
    constructor
    · rintro ((h | ⟨l, hl, rfl⟩) | ⟨r', hr', l, hl, h⟩)
      · exact Or.inl h
      · exact Or.inr ⟨r, Or.inl rfl, l, hl, rfl⟩
      · exact Or.inr ⟨r', Or.inr hr', l, hl, h⟩
    · rintro (h | ⟨r', hr' | hr', l, hl, h⟩)
      · exact Or.inl (Or.inl h)
      · subst hr'
        exact Or.inl (Or.inr ⟨l, hl, h⟩)
      · exact Or.inr ⟨r', hr', l, hl, h⟩

theorem mem_get_antecedents (rules : List Rule) (a : String) :
    a ∈ get_antecedents rules ↔ ∃ r ∈ rules, ∃ l ∈ r.body, l.name = a := by
  rw [get_antecedents, mem_get_antecedents_fold]
  simp

theorem mem_get_consequents_fold (rules : List Rule) (acc : List String)
    (a : String) :
    a ∈ rules.foldl (fun acc r => insertNew acc r.head.name) acc ↔
      a ∈ acc ∨ ∃ r ∈ rules, r.head.name = a := by
  induction rules generalizing acc with
  | nil => simp
  | cons r rules ih =>
    show (a ∈ List.foldl _ (insertNew acc r.head.name) rules) ↔ _
    rw [ih, mem_insertNew]
    simp only [List.mem_cons]
    constructor
    · rintro ((h | h) | ⟨r', hr', h⟩)
      · exact Or.inl h
      · exact Or.inr ⟨r, Or.inl rfl, h.symm⟩
      · exact Or.inr ⟨r', Or.inr hr', h⟩
    · rintro (h | ⟨r', hr' | hr', h⟩)
      · exact Or.inl (Or.inl h)
      · subst hr'
        exact Or.inl (Or.inr h.symm)
      · exact Or.inr ⟨r', hr', h⟩

theorem mem_get_consequents (rules : List Rule) (a : String) :
    a ∈ get_consequents rules ↔ ∃ r ∈ rules, r.head.name = a := by
  rw [get_consequents, mem_get_consequents_fold]
  simp

theorem rewriteGo_eq (d : String → Nat) (rs : List Rule) (i : Nat) :
    rewriteGo d rs i =
      (rs.filter (fun r => !(1 < d r.head.name : Bool)),
       ((rs.filter (fun r => (1 < d r.head.name : Bool))).enumFrom i).flatMap
         (fun p => rewritePair p.2 p.1)) := by
  induction rs generalizing i with
  | nil => rfl
  | cons r rs ih =>
    by_cases h : 1 < d r.head.name
    · simp only [rewriteGo, if_pos h, ih, List.filter_cons,
        decide_eq_true h, Bool.not_true, List.enumFrom_cons, List.flatMap_cons]
      simp
    · simp only [rewriteGo, if_neg h, ih, List.filter_cons,
        decide_eq_false h, Bool.not_false]
      simp

theorem rewrite_rules_eq (ruleset : List Rule) :
    rewrite_rules ruleset =
      keptRules ruleset ++
        ((multiRules ruleset).enumFrom ruleset.length).flatMap
          (fun p => rewritePair p.2 p.1) := by
  rw [rewrite_rules, rewriteGo_eq]
  rfl

/-- C6: `rewrite_rules` returns the uniquely-headed rules unchanged (in
order), followed by, for the j-th multiply-headed rule of the input, the
pair `H :- H'` / `H' :- B` where `H'` is named `H ++ toString (n + j)`
(`n` the input length): a head with `k > 1` defining rules thus yields
exactly `k` fresh intermediate literals with a monotonically increasing
counter seeded at `n`, and exactly `2·k` new rules whose intermediate-rule
bodies are the original bodies verbatim. -/
theorem rewrite_rules_spec (ruleset : List Rule) :
    rewrite_rules ruleset =
      keptRules ruleset ++
        ((multiRules ruleset).enumFrom ruleset.length).flatMap
          (fun p => rewritePair p.2 p.1) ∧
    ∀ h : String, 1 < headCount ruleset h →
      (multiRules ruleset).countP (fun r => r.head.name == h) =
        headCount ruleset h := by
  constructor
  · exact rewrite_rules_eq ruleset
  · intro h hk
    rw [multiRules, List.countP_filter, headCount]
    apply List.countP_congr
    intro r _
    constructor
    · intro hr
      exact (Bool.and_eq_true _ _).mp hr |>.1
    · intro hr
      refine (Bool.and_eq_true _ _).mpr ⟨hr, ?_⟩
      have : r.head.name = h := by simpa using hr
      simp [this, hk]

theorem countP_flatMap_rewritePair (l : List (Nat × Rule)) (h : String) :
    (l.flatMap (fun p => rewritePair p.2 p.1)).countP
        (fun r => r.head.name == h) =
      l.countP (fun p => p.2.head.name == h) +
        l.countP (fun p => (freshLit p.2 p.1).name == h) := by
  induction l with
  | nil => rfl
  | cons p l ih =>
    rw [List.flatMap_cons, List.countP_append, ih]
    simp only [rewritePair, List.countP_cons, List.countP_nil]
    ring

theorem countP_enumFrom_snd (l : List Rule) (n : Nat) (p : Rule → Bool) :
    (l.enumFrom n).countP (fun q => p q.2) = l.countP p := by
  have := List.countP_map p Prod.snd (l.enumFrom n)
  rw [List.enumFrom_map_snd] at this
  exact this.symm

theorem headCount_rewrite (ruleset : List Rule) (h : String) :
    headCount (rewrite_rules ruleset) h =
      headCount (keptRules ruleset) h + headCount (multiRules ruleset) h +
        (freshNames ruleset).count h := by
  rw [rewrite_rules_eq, headCount, List.countP_append,
    countP_flatMap_rewritePair]
  have h1 : ((multiRules ruleset).enumFrom ruleset.length).countP
      (fun p => p.2.head.name == h) =
      headCount (multiRules ruleset) h := by
    rw [headCount]
    exact countP_enumFrom_snd (multiRules ruleset) ruleset.length
      (fun r => r.head.name == h)
  have h2 : ((multiRules ruleset).enumFrom ruleset.length).countP
      (fun p => (freshLit p.2 p.1).name == h) =
      (freshNames ruleset).count h := by
    rw [freshNames, List.count, List.countP_map]
    rfl
  rw [h1, h2]
  simp only [headCount]
  ring

theorem headCount_kept (ruleset : List Rule) (h : String) :
    headCount (keptRules ruleset) h =
      if 1 < headCount ruleset h then 0 else headCount ruleset h := by
  rw [keptRules, headCount, List.countP_filter]
  by_cases hk : 1 < headCount ruleset h
  · rw [if_pos hk, List.countP_eq_zero]
    intro r _ hr
    rcases Bool.and_eq_true _ _ |>.mp hr with ⟨hr1, hr2⟩
    have : r.head.name = h := by simpa using hr1
    rw [this] at hr2
    simp [hk] at hr2
  · rw [if_neg hk, headCount]
    apply List.countP_congr
    intro r _
    constructor
    · intro hr
      exact (Bool.and_eq_true _ _).mp hr |>.1
    · intro hr
      refine (Bool.and_eq_true _ _).mpr ⟨hr, ?_⟩
      have : r.head.name = h := by simpa using hr
      simp [this, hk]

theorem headCount_multi (ruleset : List Rule) (h : String) :
    headCount (multiRules ruleset) h =
      if 1 < headCount ruleset h then headCount ruleset h else 0 := by
  rw [multiRules, headCount, List.countP_filter]
  by_cases hk : 1 < headCount ruleset h
  · rw [if_pos hk, headCount]
    apply List.countP_congr
    intro r _
    constructor
    · intro hr
      exact (Bool.and_eq_true _ _).mp hr |>.1
    · intro hr
      refine (Bool.and_eq_true _ _).mpr ⟨hr, ?_⟩
      have : r.head.name = h := by simpa using hr
      simp [this, hk]
  · rw [if_neg hk, List.countP_eq_zero]
    intro r _ hr
    rcases Bool.and_eq_true _ _ |>.mp hr with ⟨hr1, hr2⟩
    have : r.head.name = h := by simpa using hr1
    rw [this] at hr2
    simp [hk] at hr2

theorem headCount_pos_iff (rules : List Rule) (h : String) :
    0 < headCount rules h ↔ ∃ r ∈ rules, r.head.name = h := by
  rw [headCount, List.countP_pos_iff]
  constructor
  · rintro ⟨r, hr, hp⟩
    exact ⟨r, hr, by simpa using hp⟩
  · rintro ⟨r, hr, hp⟩
    exact ⟨r, hr, by simpa using hp⟩

/-- Witness for `rewrite_rules_spec` at the docstring example. -/
theorem rewrite_rules_spec_witness :
    1 < headCount exampleC5 "A" ∧
      (multiRules exampleC5).countP (fun r => r.head.name == "A") =
        headCount exampleC5 "A" :=
  ⟨by decide, (rewrite_rules_spec exampleC5).2 "A" (by decide)⟩

/-- C5 counterexample: after rewriting `{A :- B, C.  A :- D, E.}`, the head
name `A` is the consequent of two rules (`A :- A2` and `A :- A3`), so the
claimed invariant "each head name is the consequent of at most one rule"
fails on the code. -/
theorem rewrite_not_unique_heads :
    headCount (rewrite_rules exampleC5) "A" = 2 ∧
      ¬ headCount (rewrite_rules exampleC5) "A" ≤ 1 := by
  constructor
  · decide
  · decide

/-- C5 amended: after rewriting, a head name is the consequent of at most
one rule only if it was uniquely defined in the input; a head with
`k > 1` defining rules is instead the consequent of exactly `k` rules,
each of whose bodies is a single non-negated fresh intermediate literal,
and each fresh intermediate name heads exactly one rule.  The hypotheses
state that the generated fresh names are pairwise distinct and distinct
from every input head name (the spec's freshness requirement, which the
counter seeding guarantees for any reasonable input). -/
theorem rewrite_head_multiplicity (ruleset : List Rule)
    (hnodup : (freshNames ruleset).Nodup)
    (hsep : ∀ f ∈ freshNames ruleset, ∀ r ∈ ruleset, f ≠ r.head.name)
    (h : String) :
    (headCount ruleset h ≤ 1 → h ∉ freshNames ruleset →
      headCount (rewrite_rules ruleset) h = headCount ruleset h) ∧
    (1 < headCount ruleset h →
      headCount (rewrite_rules ruleset) h = headCount ruleset h ∧
      ∀ r ∈ rewrite_rules ruleset, r.head.name = h →
        ∃ lit : Literal, r.body = [lit] ∧ lit.negated = false ∧
          lit.name ∈ freshNames ruleset) ∧
    (h ∈ freshNames ruleset → headCount (rewrite_rules ruleset) h = 1) := by
  refine ⟨?_, ?_, ?_⟩
  · intro hle hnm
    rw [headCount_rewrite, headCount_kept, headCount_multi,
      if_neg (by omega), if_neg (by omega),
      List.count_eq_zero_of_not_mem hnm]
    omega
  · intro hk
    have hpos : 0 < headCount ruleset h := by omega
    obtain ⟨r0, hr0, hr0h⟩ := (headCount_pos_iff ruleset h).mp hpos
    have hnm : h ∉ freshNames ruleset := fun hm =>
      hsep h hm r0 hr0 hr0h.symm
    constructor
    · rw [headCount_rewrite, headCount_kept, headCount_multi,
        if_pos hk, if_pos hk, List.count_eq_zero_of_not_mem hnm]
      omega
    · intro r hr hrh
      rw [rewrite_rules_eq] at hr
      rcases List.mem_append.mp hr with hr | hr
      · exfalso
        have := List.of_mem_filter hr
        rw [hrh] at this
        simp [hk] at this
      · obtain ⟨p, hp, hrp⟩ := List.mem_flatMap.mp hr
        have hfresh : (freshLit p.2 p.1).name ∈ freshNames ruleset :=
          List.mem_map_of_mem _ hp
        simp only [rewritePair, List.mem_cons, List.not_mem_nil,
          or_false] at hrp
        rcases hrp with rfl | rfl
        · exact ⟨freshLit p.2 p.1, rfl, rfl, hfresh⟩
        · exfalso
          exact hsep _ (hrh ▸ hfresh) r0 hr0 hr0h.symm
  · intro hm
    have hzero : headCount ruleset h = 0 := by
      rw [headCount, List.countP_eq_zero]
      intro r hr hbeq
      have heq : r.head.name = h := by simpa using hbeq
      exact hsep h hm r hr heq.symm
    rw [headCount_rewrite, headCount_kept, headCount_multi, hzero,
      List.count_eq_one_of_mem hnodup hm]
    simp

/-- Witness for `rewrite_head_multiplicity` at the docstring example. -/
theorem rewrite_head_multiplicity_witness :
    1 < headCount exampleC5 "A" ∧
      headCount (rewrite_rules exampleC5) "A" = headCount exampleC5 "A" :=
  ⟨by decide,
    ((rewrite_head_multiplicity exampleC5 (by decide) (by decide) "A").2.1
      (by decide)).1⟩

theorem extractLayer_eq (ants : List String) (rs : List Rule) :
    extractLayer ants rs =
      (rs.filter (fun r => !(r.head.name ∈ ants : Bool)),
       rs.filter (fun r => (r.head.name ∈ ants : Bool))) := by
  induction rs with
  | nil => rfl
  | cons r rs ih =>
    by_cases h : r.head.name ∈ ants
    · simp [extractLayer, ih, h, List.filter_cons]
    · simp [extractLayer, ih, h, List.filter_cons]

theorem remainingAfter_succ_comm (rules : List Rule) (k : Nat) :
    remainingAfter rules (k + 1) = remainingAfter (layerStep rules) k := by
  induction k with
  | zero => rfl
  | succ k ih =>
    show layerStep (remainingAfter rules (k + 1)) = _
    rw [ih]
    rfl

theorem frontierOf_subset (rules : List Rule) :
    ∀ r ∈ frontierOf rules, r ∈ rules := by
  intro r hr
  rw [frontierOf, extractLayer_eq] at hr
  exact List.mem_of_mem_filter hr

theorem layerStep_subset (rules : List Rule) :
    ∀ r ∈ layerStep rules, r ∈ rules := by
  intro r hr
  rw [layerStep, extractLayer_eq] at hr
  exact List.mem_of_mem_filter hr

theorem remainingAfter_subset (rules : List Rule) (k : Nat) :
    ∀ r ∈ remainingAfter rules k, r ∈ rules := by
  induction k with
  | zero => exact fun r hr => hr
  | succ k ih => exact fun r hr => ih r (layerStep_subset _ r hr)

theorem layersAux_getD (fuel : Nat) (rules : List Rule) (k : Nat)
    (hk : k < (layersAux fuel rules).length) :
    (layersAux fuel rules).getD k [] = frontierOf (remainingAfter rules k) := by
  induction fuel generalizing rules k with
  | zero => simp [layersAux] at hk
  | succ fuel ih =>
    rw [layersAux] at hk ⊢
    by_cases he : rules.isEmpty
    · rw [if_pos he] at hk
      simp at hk
    · rw [if_neg he] at hk ⊢
      match k with
      | 0 => rfl
      | k + 1 =>
        simp only [List.length_cons, Nat.add_lt_add_iff_right] at hk
        show (layersAux fuel (layerStep rules)).getD k [] = _
        rw [ih (layerStep rules) k hk, remainingAfter_succ_comm]

theorem layersAux_drop_flatten (fuel : Nat) (rules : List Rule) (k : Nat) :
    ∀ r ∈ (((layersAux fuel rules).drop k).flatten),
      r ∈ remainingAfter rules k := by
  induction fuel generalizing rules k with
  | zero =>
    intro r hr
    simp [layersAux] at hr
  | succ fuel ih =>
    intro r hr
    rw [layersAux] at hr
    by_cases he : rules.isEmpty
    · rw [if_pos he] at hr
      simp at hr
    · rw [if_neg he] at hr
      match k with
      | 0 =>
        rw [List.drop_zero, List.flatten_cons, List.mem_append] at hr
        rcases hr with hr | hr
        · exact frontierOf_subset rules r hr
        · have := ih (layerStep rules) 0 r (by simpa using hr)
          exact layerStep_subset rules r this
      | k + 1 =>
        rw [List.drop_succ_cons] at hr
        rw [remainingAfter_succ_comm]
        exact ih (layerStep rules) k r hr

/-- C1: each extracted layer of the layering loop is exactly the remaining
rules whose heads are not referenced as antecedents anywhere in the whole
remaining rule set, and consequently a layer's rule heads do not appear as
body literals of any rule of that layer or of any layer processed after
it.  Layers are indexed in processing order, before the final reversal. -/
theorem layering_frontier_invariant (fuel : Nat) (ruleset : List Rule)
    (k : Nat) :
    (k < (layersAux fuel ruleset).length →
      (layersAux fuel ruleset).getD k [] =
        (remainingAfter ruleset k).filter
          (fun r =>
            !(r.head.name ∈ get_antecedents (remainingAfter ruleset k) : Bool))) ∧
    ∀ r ∈ (layersAux fuel ruleset).getD k [],
      ∀ r' ∈ ((layersAux fuel ruleset).drop k).flatten,
        ∀ lit ∈ r'.body, lit.name ≠ r.head.name := by
  constructor
  · intro hk
    rw [layersAux_getD fuel ruleset k hk, frontierOf, extractLayer_eq]
  · intro r hr r' hr' lit hlit heq
    have hk : k < (layersAux fuel ruleset).length := by
      by_contra hk
      rw [List.getD_eq_getElem?_getD, List.getElem?_eq_none (by omega)] at hr
      simp at hr
    rw [layersAux_getD fuel ruleset k hk, frontierOf, extractLayer_eq] at hr
    have hhead := List.of_mem_filter hr
    have hmem : r.head.name ∈ get_antecedents (remainingAfter ruleset k) := by
      rw [mem_get_antecedents]
      exact ⟨r', layersAux_drop_flatten fuel ruleset k r' hr', lit, hlit, heq⟩
    simp [hmem] at hhead

/-- Witness for `layering_frontier_invariant` on the two-rule chain. -/
theorem layering_frontier_invariant_witness :
    ((layersAux 2 exampleChain).getD 0 [] =
      (remainingAfter exampleChain 0).filter
        (fun r =>
          !(r.head.name ∈ get_antecedents (remainingAfter exampleChain 0) : Bool))) ∧
    (⟨"A", false⟩ : Literal).name ≠ exampleChainCB.head.name :=
  ⟨(layering_frontier_invariant 2 exampleChain 0).1 (by decide),
   (layering_frontier_invariant 2 exampleChain 0).2 exampleChainCB (by decide)
     exampleChainBA (by decide) ⟨"A", false⟩ (by decide)⟩

/-- C3: on the cyclic input `{A :- B.  B :- A.}` every pass of the layering
loop extracts an empty frontier and leaves the working list unchanged and
non-empty, so the Python `while len(copied_rules) > 0` loop never
terminates and never raises any error; no rule is ever placed into a
layer.  This contradicts the claim that the code detects zero progress
and fails with a `CyclicRuleDependency` error. -/
theorem cyclic_input_no_progress :
    (∀ n : Nat, remainingAfter cyclicExample n = cyclicExample) ∧
    cyclicExample ≠ [] ∧
    ∀ fuel : Nat, (layersAux fuel cyclicExample).flatten = [] := by
  have hstep : layerStep cyclicExample = cyclicExample := by decide
  have hfr : frontierOf cyclicExample = [] := by decide
  have hrem : ∀ n : Nat, remainingAfter cyclicExample n = cyclicExample := by
    intro n
    induction n with
    | zero => rfl
    | succ n ih =>
      show layerStep (remainingAfter cyclicExample n) = _
      rw [ih, hstep]
  refine ⟨hrem, by decide, ?_⟩
  intro fuel
  induction fuel with
  | zero => rfl
  | succ fuel ih =>
    rw [layersAux, if_neg (by decide), hstep, hfr, List.flatten_cons, ih]
    rfl

theorem getD_set {α : Type} (l : List α) (i j : Nat) (a d : α) :
    (l.set i a).getD j d =
      if i = j ∧ j < l.length then a else l.getD j d := by
  induction l generalizing i j with
  | nil => simp
  | cons x xs ih =>
    match i, j with
    | 0, 0 => simp
    | 0, j + 1 => simp
    | i + 1, 0 => simp
    | i + 1, j + 1 =>
      show (xs.set i a).getD j d = _
      rw [ih]
      simp only [List.length_cons]
      congr 1
      simp only [eq_iff_iff]
      omega

theorem getD_replicate {α : Type} (r i : Nat) (x d : α) :
    (List.replicate r x).getD i d = if i < r then x else d := by
  induction r generalizing i with
  | zero => simp
  | succ r ih =>
    match i with
    | 0 => simp
    | i + 1 =>
      show (List.replicate r x).getD i d = _
      rw [ih]
      congr 1
      simp only [eq_iff_iff]
      omega

theorem length_setCell (m : Mat) (i j : Nat) (v : ℚ) :
    (setCell m i j v).length = m.length := by
  rw [setCell, List.length_set]

theorem row_length_setCell (m : Mat) (i' j' : Nat) (v : ℚ) (i : Nat) :
    ((setCell m i' j' v).getD i []).length = (m.getD i []).length := by
  rw [setCell, getD_set]
  by_cases h : i' = i ∧ i < m.length
  · rw [if_pos h, List.length_set, h.1]
  · rw [if_neg h]

theorem getCell_setCell_self (m : Mat) (i j : Nat) (v : ℚ)
    (hi : i < m.length) (hj : j < (m.getD i []).length) :
    getCell (setCell m i j v) i j = v := by
  rw [getCell, setCell, getD_set, if_pos ⟨rfl, hi⟩, getD_set,
    if_pos ⟨rfl, hj⟩]

theorem getCell_setCell_ne (m : Mat) (i' j' i j : Nat) (v : ℚ)
    (h : ¬(i' = i ∧ j' = j)) :
    getCell (setCell m i' j' v) i j = getCell m i j := by
  rw [getCell, setCell, getD_set, getCell]
  by_cases hi : i' = i ∧ i < m.length
  · rw [if_pos hi, getD_set, hi.1]
    have hj : ¬(j' = j ∧ j < (m.getD i []).length) := by
      intro hj
      exact h ⟨hi.1, hj.1⟩
    rw [if_neg hj]
  · rw [if_neg hi]

theorem applyWrites_getCell_of_absent (ws : List (Nat × Nat × ℚ)) (m : Mat)
    (i j : Nat) (h : ∀ w ∈ ws, ¬(w.1 = i ∧ w.2.1 = j)) :
    getCell (applyWrites m ws) i j = getCell m i j := by
  induction ws generalizing m with
  | nil => rfl
  | cons w ws ih =>
    show getCell (applyWrites (setCell m w.1 w.2.1 w.2.2) ws) i j = _
    rw [ih _ (fun w' hw' => h w' (List.mem_cons_of_mem _ hw')),
      getCell_setCell_ne _ _ _ _ _ _ (h w (List.mem_cons_self _ _))]

theorem applyWrites_length (ws : List (Nat × Nat × ℚ)) (m : Mat) :
    (applyWrites m ws).length = m.length := by
  induction ws generalizing m with
  | nil => rfl
  | cons w ws ih =>
    show (applyWrites (setCell m w.1 w.2.1 w.2.2) ws).length = _
    rw [ih, length_setCell]

theorem applyWrites_getCell (ws : List (Nat × Nat × ℚ)) (m : Mat)
    (i j : Nat) (v : ℚ) (hi : i < m.length)
    (hj : j < (m.getD i []).length)
    (hex : ∃ w ∈ ws, w.1 = i ∧ w.2.1 = j)
    (hall : ∀ w ∈ ws, w.1 = i ∧ w.2.1 = j → w.2.2 = v) :
    getCell (applyWrites m ws) i j = v := by
  induction ws generalizing m with
  | nil =>
    obtain ⟨w, hw, _⟩ := hex
    cases hw
  | cons w ws ih =>
    show getCell (applyWrites (setCell m w.1 w.2.1 w.2.2) ws) i j = v
    by_cases hws : ∃ w' ∈ ws, w'.1 = i ∧ w'.2.1 = j
    · exact ih (setCell m w.1 w.2.1 w.2.2)
        (by rw [length_setCell]; exact hi)
        (by rw [row_length_setCell]; exact hj)
        hws
        (fun w' hw' => hall w' (List.mem_cons_of_mem _ hw'))
    · obtain ⟨w0, hw0, hw0ij⟩ := hex
      rcases List.mem_cons.mp hw0 with rfl | hw0
      · rw [applyWrites_getCell_of_absent ws _ i j
          (fun w' hw' hc => hws ⟨w', hw', hc⟩), hw0ij.1, hw0ij.2,
          getCell_setCell_self m i j _ hi hj]
        exact hall w0 (List.mem_cons_self _ _) hw0ij
      · exact absurd ⟨w0, hw0, hw0ij⟩ hws

theorem foldl_set_length (ws : List (Nat × ℚ)) (b : List ℚ) :
    (ws.foldl (fun b w => b.set w.1 w.2) b).length = b.length := by
  induction ws generalizing b with
  | nil => rfl
  | cons w ws ih =>
    show (ws.foldl _ (b.set w.1 w.2)).length = _
    rw [ih, List.length_set]

theorem foldl_set_getD_of_absent (ws : List (Nat × ℚ)) (b : List ℚ)
    (j : Nat) (h : ∀ w ∈ ws, w.1 ≠ j) :
    (ws.foldl (fun b w => b.set w.1 w.2) b).getD j 0 = b.getD j 0 := by
  induction ws generalizing b with
  | nil => rfl
  | cons w ws ih =>
    show (ws.foldl _ (b.set w.1 w.2)).getD j 0 = _
    rw [ih _ (fun w' hw' => h w' (List.mem_cons_of_mem _ hw')), getD_set,
      if_neg (fun hc => h w (List.mem_cons_self _ _) hc.1)]

theorem foldl_set_getD (ws : List (Nat × ℚ)) (b : List ℚ) (j : Nat) (v : ℚ)
    (hj : j < b.length)
    (hex : ∃ w ∈ ws, w.1 = j)
    (hall : ∀ w ∈ ws, w.1 = j → w.2 = v) :
    (ws.foldl (fun b w => b.set w.1 w.2) b).getD j 0 = v := by
  induction ws generalizing b with
  | nil =>
    obtain ⟨w, hw, _⟩ := hex
    cases hw
  | cons w ws ih =>
    show (ws.foldl _ (b.set w.1 w.2)).getD j 0 = v
    by_cases hws : ∃ w' ∈ ws, w'.1 = j
    · exact ih (b.set w.1 w.2) (by rw [List.length_set]; exact hj) hws
        (fun w' hw' => hall w' (List.mem_cons_of_mem _ hw'))
    · obtain ⟨w0, hw0, hw0j⟩ := hex
      rcases List.mem_cons.mp hw0 with rfl | hw0
      · rw [foldl_set_getD_of_absent ws _ j
          (fun w' hw' hc => hws ⟨w', hw', hc⟩), getD_set,
          if_pos ⟨hw0j, hj⟩]
        exact hall w0 (List.mem_cons_self _ _) hw0j
      · exact absurd ⟨w0, hw0, hw0j⟩ hws

theorem two_le_length_of_mem {α : Type} {l : List α} {a b : α}
    (ha : a ∈ l) (hb : b ∈ l) (hne : a ≠ b) : 2 ≤ l.length := by
  match l with
  | [] => cases ha
  | [x] =>
    rw [List.mem_singleton] at ha hb
    exact absurd (ha.trans hb.symm) hne
  | x :: y :: l => simp [Nat.succ_le_succ, Nat.succ_le_of_lt]

theorem headCount_two_le (rl : List Rule) (r r' : Rule) (hr : r ∈ rl)
    (hr' : r' ∈ rl) (hhead : r'.head.name = r.head.name) (hne : r ≠ r') :
    2 ≤ headCount rl r.head.name := by
  rw [headCount, List.countP_eq_length_filter]
  exact two_le_length_of_mem
    (List.mem_filter.mpr ⟨hr, by simp⟩)
    (List.mem_filter.mpr ⟨hr', by simp [hhead]⟩) hne

/-- C4: for every rule layer (and any carried `last_layer`), the
synthesized weight from body literal `li` to head `H` is `+ω` if `li` is
not negated and `−ω` if it is, and `H`'s bias is `0.5·ω` when `H` has
multiple defining rules in the layer (disjunctive) and `(p − 0.5)·ω`,
with `p` the body length, when it has a single one (conjunctive).  The
hypothesis rules out contradictory writes to a single cell (two rules
with the same head naming the same body literal with opposite negation),
which cannot occur for rewritten rule sets. -/
theorem synth_weight_bias_spec (last : List String) (rl : List Rule)
    (hcons : ∀ r1 ∈ rl, ∀ r2 ∈ rl, r1.head.name = r2.head.name →
      ∀ l1 ∈ r1.body, ∀ l2 ∈ r2.body, l1.name = l2.name →
        l1.negated = l2.negated) :
    ∀ r ∈ rl, ∀ lit ∈ r.body,
      getCell (fillWeight (curLayer last rl) (get_consequents rl) rl)
          ((curLayer last rl).indexOf lit.name)
          ((get_consequents rl).indexOf r.head.name) =
        (if lit.negated then -omega else omega) ∧
      (fillBias (get_consequents rl) rl).getD
          ((get_consequents rl).indexOf r.head.name) 0 =
        (if 1 < headCount rl r.head.name then (1 / 2) * omega
         else ((r.body.length : ℚ) - 1 / 2) * omega) := by
  intro r hr lit hlit
  have hlitmem : lit.name ∈ curLayer last rl := by
    rw [curLayer, mem_dedupAppend]
    exact Or.inr ((mem_get_antecedents rl lit.name).mpr ⟨r, hr, lit, hlit, rfl⟩)
  have hheadmem : r.head.name ∈ get_consequents rl :=
    (mem_get_consequents rl r.head.name).mpr ⟨r, hr, rfl⟩
  have hi : (curLayer last rl).indexOf lit.name < (curLayer last rl).length :=
    List.indexOf_lt_length.mpr hlitmem
  have hj : (get_consequents rl).indexOf r.head.name <
      (get_consequents rl).length :=
    List.indexOf_lt_length.mpr hheadmem
  constructor
  · apply applyWrites_getCell
    · rw [zerosMat, List.length_replicate]
      exact hi
    · rw [zerosMat, getD_replicate, if_pos hi, List.length_replicate]
      exact hj
    · refine ⟨((curLayer last rl).indexOf lit.name,
        (get_consequents rl).indexOf r.head.name,
        if lit.negated then -omega else omega), ?_, rfl, rfl⟩
      rw [weightWrites, List.mem_flatMap]
      exact ⟨r, hr, List.mem_map.mpr ⟨lit, hlit, rfl⟩⟩
    · intro w hw hwij
      rw [weightWrites, List.mem_flatMap] at hw
      obtain ⟨r', hr', hw⟩ := hw
      obtain ⟨lit', hlit', rfl⟩ := List.mem_map.mp hw
      have hlit'mem : lit'.name ∈ curLayer last rl := by
        rw [curLayer, mem_dedupAppend]
        exact Or.inr
          ((mem_get_antecedents rl lit'.name).mpr ⟨r', hr', lit', hlit', rfl⟩)
      have hhead'mem : r'.head.name ∈ get_consequents rl :=
        (mem_get_consequents rl r'.head.name).mpr ⟨r', hr', rfl⟩
      have hname : lit'.name = lit.name :=
        (List.indexOf_inj hlit'mem hlitmem).mp hwij.1
      have hhname : r'.head.name = r.head.name :=
        (List.indexOf_inj hhead'mem hheadmem).mp hwij.2
      have hneg : lit'.negated = lit.negated :=
        hcons r' hr' r hr hhname lit' hlit' lit hlit hname
      rw [hneg]
  · apply foldl_set_getD
    · rw [List.length_replicate]
      exact hj
    · refine ⟨((get_consequents rl).indexOf r.head.name,
        if 1 < headCount rl r.head.name then (1 / 2) * omega
        else ((r.body.length : ℚ) - 1 / 2) * omega), ?_, rfl⟩
      rw [biasWrites]
      exact List.mem_map.mpr ⟨r, hr, rfl⟩
    · intro w hw hwj
      rw [biasWrites] at hw
      obtain ⟨r', hr', rfl⟩ := List.mem_map.mp hw
      have hhead'mem : r'.head.name ∈ get_consequents rl :=
        (mem_get_consequents rl r'.head.name).mpr ⟨r', hr', rfl⟩
      have hhname : r'.head.name = r.head.name :=
        (List.indexOf_inj hhead'mem hheadmem).mp hwj
      by_cases hmul : 1 < headCount rl r.head.name
      · rw [hhname, if_pos hmul, if_pos hmul]
      · have : r' = r := by
          by_contra hne
          exact hmul (headCount_two_le rl r r' hr hr' hhname
            (fun e => hne e.symm))
        rw [this]

/-- Witness for `synth_weight_bias_spec` on `Target :- A, B.`. -/
theorem synth_weight_bias_spec_witness :
    getCell (fillWeight (curLayer [] [toyRule]) (get_consequents [toyRule])
        [toyRule])
        ((curLayer [] [toyRule]).indexOf "A")
        ((get_consequents [toyRule]).indexOf "Target") = omega ∧
    (fillBias (get_consequents [toyRule]) [toyRule]).getD
        ((get_consequents [toyRule]).indexOf "Target") 0 =
      ((2 : ℚ) - 1 / 2) * omega := by
  have h := synth_weight_bias_spec [] [toyRule]
    (by decide) toyRule (by decide) ⟨"A", false⟩ (by decide)
  refine ⟨?_, ?_⟩
  · have := h.1
    simpa using this
  · have := h.2
    simpa using this

/-- C2 counterexample: on `{Target :- A, B.}` with ω = 4, the synthesized
bias is `(2 − 0.5)·ω = 6.0`, not 3.5; the unperturbed pair of weights is
assigned two distinct singleton clusters `[0, 1]`, not one cluster
`{A, B}`; and the extracted rule string is
`Target :- 6.0 < 4.0 * nt(A) + 4.0 * nt(B)`, not the claimed
`Target :- 3.5 < 4.0 * nt(A,B)`. -/
theorem toy_fillWeight :
    fillWeight (curLayer [] [toyRule]) (get_consequents [toyRule]) [toyRule] =
      [[4], [4]] := by
  decide

theorem toy_fillBias :
    fillBias (get_consequents [toyRule]) [toyRule] = [6] := by
  simp only [fillBias, biasWrites, toyRule, get_consequents, headCount]
  norm_num [List.foldl, insertNew, List.replicate, omega]

theorem toy_rule_to_network :
    rule_to_network (rewrite_rules [toyRule]) =
      ([[[4], [4]]], [[6]], [["A", "B"], ["Target"]]) := by
  rw [show rewrite_rules [toyRule] = [toyRule] by decide, rule_to_network,
    show (layersAux (List.length [toyRule]) [toyRule]).reverse = [[toyRule]]
      by decide]
  simp only [synthAll, synthLayer, toy_fillWeight, toy_fillBias]
  decide

/-- C2 counterexample: on `{Target :- A, B.}` with ω = 4, the synthesized
bias is `(2 − 0.5)·ω = 6.0`, not 3.5; the unperturbed pair of weights is
assigned two distinct singleton clusters `[0, 1]`, not one cluster
`{A, B}`; and extraction does not produce the claimed string
`Target :- 3.5 < 4.0 * nt(A,B)`. -/
theorem toy_roundtrip_counterexample :
    (rule_to_network (rewrite_rules [toyRule])).2.1 = [[6]] ∧
    (6 : ℚ) ≠ 7 / 2 ∧
    (eliminate_weights trivOracle [[[4], [4]]] [[6]]).2.2 = [[[0, 1]]] ∧
    ([0, 1] : List Nat).dedup.length = 2 ∧
    network_to_rule [[[4], [4]]] [[6]] [[[0, 1]]] [["A", "B"], ["Target"]] ≠
      ["Target :- 3.5 < 4.0 * nt(A,B)"] := by
  refine ⟨by rw [toy_rule_to_network], by norm_num, by decide, by decide,
    by decide⟩

/-- C2 amended: the toy round-trip as the code actually computes it —
weight column `[4, 4]` and bias `6.0`; clustering the unperturbed pair
yields two singleton clusters `[0, 1]`, each of mean weight 4.0; and
extraction produces `Target :- 6.0 < 4.0 * nt(A) + 4.0 * nt(B)`. -/
theorem toy_roundtrip :
    rule_to_network (rewrite_rules [toyRule]) =
      ([[[4], [4]]], [[6]], [["A", "B"], ["Target"]]) ∧
    eliminate_weights trivOracle [[[4], [4]]] [[6]] =
      ([[[4], [4]]], [[6]], [[[0, 1]]]) ∧
    network_to_rule [[[4], [4]]] [[6]] [[[0, 1]]] [["A", "B"], ["Target"]] =
      ["Target :- 6.0 < 4.0 * nt(A) + 4.0 * nt(B)"] := by
  refine ⟨toy_rule_to_network, by decide, by decide⟩

theorem maskAssign_length (ls : List ℚ) (ids : List Nat) (c : Nat) (v : ℚ) :
    (maskAssign ls ids c v).length = min ls.length ids.length := by
  rw [maskAssign, List.length_map, List.length_zip]

theorem maskAssign_getD (ls : List ℚ) (ids : List Nat) (c : Nat) (v : ℚ)
    (j : Nat) (hj : j < ls.length) (hlen : ids.length = ls.length) :
    (maskAssign ls ids c v).getD j 0 =
      if ids.getD j 0 = c then v else ls.getD j 0 := by
  induction ls generalizing ids j with
  | nil => simp at hj
  | cons x ls ih =>
    match ids, j with
    | [], _ => simp at hlen
    | i :: ids, 0 => rfl
    | i :: ids, j + 1 =>
      show (maskAssign ls ids c v).getD j 0 = _
      exact ih ids j (by simpa using hj) (by simpa using hlen)

theorem selOf_cons (y : ℚ) (ls : List ℚ) (i : Nat) (ids : List Nat)
    (c : Nat) :
    selOf (y :: ls) (i :: ids) c =
      if i = c then y :: selOf ls ids c else selOf ls ids c := by
  rw [selOf]
  show (((y, i) :: ls.zip ids).filter _).map _ = _
  rw [List.filter_cons]
  by_cases h : i = c
  · simp only [h, decide_True, if_pos rfl, List.map_cons]
    rfl
  · simp only [decide_eq_true_eq, h, if_neg]
    rfl

theorem selOf_maskAssign (ls : List ℚ) (ids : List Nat) (c : Nat) (v : ℚ)
    (d : Nat) (hne : d ≠ c) :
    selOf (maskAssign ls ids c v) ids d = selOf ls ids d := by
  induction ls generalizing ids with
  | nil => rfl
  | cons x ls ih =>
    match ids with
    | [] => rfl
    | i :: ids =>
      show selOf ((if i = c then v else x) :: maskAssign ls ids c v)
        (i :: ids) d = _
      rw [selOf_cons, selOf_cons, ih ids]
      by_cases hid : i = d
      · rw [if_pos hid, if_pos hid, if_neg (by rw [hid]; exact hne)]
      · rw [if_neg hid, if_neg hid]

theorem clusterMean_maskAssign (ls : List ℚ) (ids : List Nat) (c : Nat)
    (v : ℚ) (d : Nat) (hne : d ≠ c) :
    clusterMean (maskAssign ls ids c v) ids d = clusterMean ls ids d := by
  rw [clusterMean, clusterMean, selOf_maskAssign ls ids c v d hne]

theorem avgLoop_length (ids cs : List Nat) (ls : List ℚ)
    (hlen : ids.length = ls.length) :
    (avgLoop ids ls cs).length = ls.length := by
  induction cs generalizing ls with
  | nil => rfl
  | cons c cs ih =>
    show (avgLoop ids (maskAssign ls ids c (clusterMean ls ids c)) cs).length = _
    rw [ih _ (by rw [maskAssign_length]; omega), maskAssign_length]
    omega

theorem avgLoop_getD (ids : List Nat) (cs : List Nat) (ls : List ℚ)
    (hnd : cs.Nodup) (hlen : ids.length = ls.length) (j : Nat)
    (hj : j < ls.length) :
    (avgLoop ids ls cs).getD j 0 =
      if ids.getD j 0 ∈ cs then clusterMean ls ids (ids.getD j 0)
      else ls.getD j 0 := by
  induction cs generalizing ls with
  | nil => simp [avgLoop]
  | cons c cs ih =>
    rw [List.nodup_cons] at hnd
    have hmlen : (maskAssign ls ids c (clusterMean ls ids c)).length =
        ls.length := by
      rw [maskAssign_length]; omega
    show (avgLoop ids (maskAssign ls ids c (clusterMean ls ids c)) cs).getD
        j 0 = _
    rw [ih _ hnd.2 (by omega) (by omega)]
    by_cases hmem : ids.getD j 0 ∈ cs
    · have hne : ids.getD j 0 ≠ c := fun he => hnd.1 (he ▸ hmem)
      rw [if_pos hmem, if_pos (List.mem_cons_of_mem _ hmem),
        clusterMean_maskAssign ls ids c _ _ hne]
    · rw [if_neg hmem, maskAssign_getD ls ids c _ j hj hlen]
      by_cases hc : ids.getD j 0 = c
      · rw [if_pos hc, if_pos (by rw [hc]; exact List.mem_cons_self _ _), hc]
      · rw [if_neg hc, if_neg (by
          intro hm
          rcases List.mem_cons.mp hm with hm | hm
          · exact hc hm
          · exact hmem hm)]

theorem uniqueSorted_nodup (ids : List Nat) : (uniqueSorted ids).Nodup :=
  (List.perm_insertionSort (· ≤ ·) ids.dedup).nodup_iff.mpr
    (List.nodup_dedup ids)

theorem mem_uniqueSorted (ids : List Nat) (a : Nat) :
    a ∈ uniqueSorted ids ↔ a ∈ ids := by
  rw [uniqueSorted, (List.perm_insertionSort (· ≤ ·) ids.dedup).mem_iff,
    List.mem_dedup]

theorem avgLoop_uniqueSorted_getD (ids : List Nat) (ls : List ℚ)
    (hlen : ids.length = ls.length) (j : Nat) (hj : j < ls.length) :
    (avgLoop ids ls (uniqueSorted ids)).getD j 0 =
      clusterMean ls ids (ids.getD j 0) := by
  rw [avgLoop_getD ids (uniqueSorted ids) ls (uniqueSorted_nodup ids) hlen
    j hj, if_pos]
  rw [mem_uniqueSorted]
  have hjlen : j < ids.length := by omega
  rw [List.getD_eq_getElem ids 0 hjlen]
  exact List.getElem_mem hjlen

theorem avgLoop_eq_map (ids : List Nat) (ls : List ℚ)
    (hlen : ids.length = ls.length) :
    avgLoop ids ls (uniqueSorted ids) = ids.map (clusterMean ls ids) := by
  apply List.ext_getElem
  · rw [avgLoop_length ids _ ls hlen, List.length_map]
    omega
  · intro j hj1 hj2
    have hjls : j < ls.length := by
      rw [avgLoop_length ids _ ls hlen] at hj1
      exact hj1
    have hjids : j < ids.length := by omega
    rw [← List.getD_eq_getElem _ (0 : ℚ) hj1,
      avgLoop_uniqueSorted_getD ids ls hlen j hjls,
      List.getElem_map, ← List.getD_eq_getElem ids 0 hjids]

theorem dedup_length_map_le (f : Nat → ℚ) (l : List Nat) :
    (l.map f).dedup.length ≤ l.dedup.length := by
  rw [← List.card_toFinset, ← List.card_toFinset]
  have h : (l.map f).toFinset = l.toFinset.image f := by
    ext a
    simp
  rw [h]
  exact Finset.card_image_le

theorem bicFold_spec (f : Nat → ℚ) (ks : List Nat) :
    ∀ (lb : ℚ) (b : Nat), lb = f b →
    ∃ lb' b',
      ks.foldl
          (fun acc k =>
            match acc with
            | none => some (f k, k)
            | some p => if f k < p.1 then some (f k, k) else some p)
          (some (lb, b)) = some (lb', b') ∧
      lb' = f b' ∧ (b' = b ∨ b' ∈ ks) ∧ lb' ≤ lb ∧
      ∀ k ∈ ks, lb' ≤ f k := by
  induction ks with
  | nil =>
    intro lb b hlb
    exact ⟨lb, b, rfl, hlb, Or.inl rfl, le_refl lb, by simp⟩
  | cons k ks ih =>
    intro lb b hlb
    show ∃ lb' b', (ks.foldl _ (if f k < lb then some (f k, k)
      else some (lb, b))) = some (lb', b') ∧ _
    by_cases hk : f k < lb
    · rw [if_pos hk]
      obtain ⟨lb', b', heq, hfb, hor, hle, hall⟩ := ih (f k) k rfl
      refine ⟨lb', b', heq, hfb, ?_, le_of_lt (lt_of_le_of_lt hle hk), ?_⟩
      · rcases hor with h | h
        · exact Or.inr (h ▸ List.mem_cons_self _ _)
        · exact Or.inr (List.mem_cons_of_mem _ h)
      · intro k' hk'
        rcases List.mem_cons.mp hk' with rfl | hk'
        · exact hle
        · exact hall k' hk'
    · rw [if_neg hk]
      obtain ⟨lb', b', heq, hfb, hor, hle, hall⟩ := ih lb b hlb
      refine ⟨lb', b', heq, hfb, ?_, hle, ?_⟩
      · rcases hor with h | h
        · exact Or.inl h
        · exact Or.inr (List.mem_cons_of_mem _ h)
      · intro k' hk'
        rcases List.mem_cons.mp hk' with rfl | hk'
        · exact le_trans hle (le_of_not_lt hk)
        · exact hall k' hk'

theorem chooseComponents_spec (o : GMMOracle) (links : List ℚ) (n : Nat)
    (hn : 2 < n) :
    chooseComponents o links n ∈ List.range' 2 (n - 2) ∧
    ∀ k ∈ List.range' 2 (n - 2),
      o.bic (chooseComponents o links n) links ≤ o.bic k links := by
  obtain ⟨m, hm⟩ : ∃ m, n - 2 = m + 1 := ⟨n - 3, by omega⟩
  have hr : List.range' 2 (n - 2) = 2 :: List.range' 3 m := by
    rw [hm]
    rfl
  obtain ⟨lb', b', heq, hfb, hor, hle, hall⟩ :=
    bicFold_spec (fun k => o.bic k links) (List.range' 3 m)
      (o.bic 2 links) 2 rfl
  have hcc : chooseComponents o links n = b' := by
    rw [chooseComponents, hr]
    show (match (List.range' 3 m).foldl _ (some (o.bic 2 links, 2)) with
      | some p => p.2 | none => 0) = b'
    rw [heq]
  constructor
  · rw [hcc, hr]
    rcases hor with h | h
    · exact h ▸ List.mem_cons_self _ _
    · exact List.mem_cons_of_mem _ h
  · intro k hk
    rw [hcc, ← hfb]
    rw [hr] at hk
    rcases List.mem_cons.mp hk with rfl | hk
    · exact hle
    · exact hall k hk

theorem cluster_weights_length (o : GMMOracle) (links : List ℚ) (t : ℚ)
    (hpred : ∀ k, (o.predict k links).length = links.length) :
    (cluster_weights o links t).1.length = links.length := by
  rw [cluster_weights]
  by_cases h2 : 2 < links.length
  · rw [if_pos h2]
    exact avgLoop_length _ _ _ (hpred _)
  · rw [if_neg h2]
    by_cases he : links.length = 2
    · rw [if_pos he]
    · rw [if_neg he]

theorem column_length (m : Mat) (j : Nat) : (column m j).length = m.length :=
  List.length_map _ _

theorem setColumn_length (m : Mat) (j : Nat) (v : List ℚ) :
    (setColumn m j v).length = min m.length v.length := by
  rw [setColumn, List.length_map, List.length_zip]

theorem column_setColumn_ne (m : Mat) (j' j : Nat) (v : List ℚ)
    (hlen : v.length = m.length) (hne : j' ≠ j) :
    column (setColumn m j' v) j = column m j := by
  induction m generalizing v with
  | nil => rfl
  | cons r m ih =>
    match v with
    | [] => simp at hlen
    | x :: v =>
      show ((r.set j' x).getD j 0) :: column (setColumn m j' v) j = _
      rw [ih v (by simpa using hlen), getD_set,
        if_neg (fun hc => hne hc.1)]
      rfl

theorem column_setColumn_self (m : Mat) (j : Nat) (v : List ℚ)
    (hlen : v.length = m.length) (hrect : ∀ row ∈ m, j < row.length) :
    column (setColumn m j v) j = v := by
  induction m generalizing v with
  | nil =>
    match v with
    | [] => rfl
    | x :: v => simp at hlen
  | cons r m ih =>
    match v with
    | [] => simp at hlen
    | x :: v =>
      show ((r.set j x).getD j 0) :: column (setColumn m j v) j = x :: v
      rw [getD_set, if_pos ⟨rfl, hrect r (List.mem_cons_self _ _)⟩,
        ih v (by simpa using hlen)
          (fun row hrow => hrect row (List.mem_cons_of_mem _ hrow))]

theorem setColumn_rect (m : Mat) (j : Nat) (v : List ℚ) (c : Nat)
    (hrect : ∀ row ∈ m, row.length = c) :
    ∀ row ∈ setColumn m j v, row.length = c := by
  intro row hrow
  rw [setColumn] at hrow
  obtain ⟨p, hp, rfl⟩ := List.mem_map.mp hrow
  rw [List.length_set]
  exact hrect p.1 (List.of_mem_zip hp).1

theorem elimFold_spec (o : GMMOracle) (bvec : List ℚ)
    (hpred : ∀ k l, (o.predict k l).length = l.length) (c : Nat) :
    ∀ (js : List Nat), js.Nodup → (∀ k ∈ js, k < c) →
    ∀ (m : Mat) (cl : List (List Nat)), (∀ row ∈ m, row.length = c) →
    (∀ j, j ∉ js →
      column ((js.foldl (elimStep o bvec) (m, cl)).1) j = column m j) ∧
    (∀ j ∈ js,
      column ((js.foldl (elimStep o bvec) (m, cl)).1) j =
        (cluster_weights o (column m j) (bvec.getD j 0)).1) ∧
    (js.foldl (elimStep o bvec) (m, cl)).2 =
      cl ++ js.map (fun j => (cluster_weights o (column m j) (bvec.getD j 0)).2) := by
  intro js
  induction js with
  | nil =>
    intro _ _ m cl _
    exact ⟨fun j _ => rfl, fun j hj => absurd hj (List.not_mem_nil j),
      by simp⟩
  | cons k js ih =>
    intro hnd hbound m cl hrect
    rw [List.nodup_cons] at hnd
    have hwlen : (cluster_weights o (column m k) (bvec.getD k 0)).1.length =
        m.length := by
      rw [cluster_weights_length o _ _ (fun k' => hpred k' _), column_length]
    have hrect' : ∀ row ∈
        setColumn m k (cluster_weights o (column m k) (bvec.getD k 0)).1,
        row.length = c :=
      setColumn_rect m k _ c hrect
    have hstep : (k :: js).foldl (elimStep o bvec) (m, cl) =
        js.foldl (elimStep o bvec)
          (setColumn m k (cluster_weights o (column m k) (bvec.getD k 0)).1,
           cl ++ [(cluster_weights o (column m k) (bvec.getD k 0)).2]) := rfl
    obtain ⟨huntouched, hmain, hcl⟩ := ih hnd.2
      (fun k' hk' => hbound k' (List.mem_cons_of_mem _ hk'))
      (setColumn m k (cluster_weights o (column m k) (bvec.getD k 0)).1)
      (cl ++ [(cluster_weights o (column m k) (bvec.getD k 0)).2]) hrect'
    have hcol_ne : ∀ j, j ≠ k →
        column (setColumn m k
          (cluster_weights o (column m k) (bvec.getD k 0)).1) j =
          column m j :=
      fun j hj => column_setColumn_ne m k j _ hwlen (fun he => hj he.symm)
    refine ⟨?_, ?_, ?_⟩
    · intro j hj
      rw [hstep, huntouched j (fun hm => hj (List.mem_cons_of_mem _ hm)),
        hcol_ne j (fun he => hj (he ▸ List.mem_cons_self _ _))]
    · intro j hj
      rcases List.mem_cons.mp hj with rfl | hj
      · rw [hstep, huntouched j hnd.1, column_setColumn_self m j _ hwlen
          (fun row hrow => by
            rw [hrect row hrow]
            exact hbound j (List.mem_cons_self _ _))]
      · have hne : j ≠ k := fun he => hnd.1 (he ▸ hj)
        rw [hstep, hmain j hj, hcol_ne j hne]
    · rw [hstep, hcl, List.map_cons, List.append_assoc]
      congr 1
      rw [List.singleton_append]
      congr 1
      apply List.map_congr_left
      intro j hj
      rw [hcol_ne j (fun he => hnd.1 (he ▸ hj))]

theorem elimMat_spec (o : GMMOracle) (bvec : List ℚ) (m : Mat)
    (hpred : ∀ k l, (o.predict k l).length = l.length)
    (hrect : ∀ row ∈ m, row.length = cols m) :
    (∀ j < cols m,
      column (elimMat o m bvec).1 j =
        (cluster_weights o (column m j) (bvec.getD j 0)).1) ∧
    (elimMat o m bvec).2 =
      (List.range (cols m)).map
        (fun j => (cluster_weights o (column m j) (bvec.getD j 0)).2) := by
  obtain ⟨_, hmain, hcl⟩ := elimFold_spec o bvec hpred (cols m)
    (List.range (cols m)) (List.nodup_range _)
    (fun k hk => List.mem_range.mp hk) m [] hrect
  exact ⟨fun j hj => hmain j (List.mem_range.mpr hj), by simpa using hcl⟩

/-- C7: for a column with `n > 2` entries, `cluster_weights` consults the
mixture collaborator for component counts `2 .. n − 1`, keeps a
BIC-minimizing count, and overwrites every weight with the mean of its
assigned cluster, so the distinct values in the averaged column are at
most the distinct cluster ids; an `n = 2` column gets the two singleton
clusters `[0, 1]` with no fitting, and an `n = 1` column gets the single
cluster id 0.  `elimMat`/`eliminate_weights` apply exactly this to every
column of every weight matrix, leaving biases unchanged.  The `hpred`
hypothesis is the collaborator contract that `predict` returns one id
per sample. -/
theorem clustering_spec (o : GMMOracle)
    (hpred : ∀ k l, (o.predict k l).length = l.length)
    (links : List ℚ) (t : ℚ) :
    (2 < links.length →
      (cluster_weights o links t).2 =
        o.predict (chooseComponents o links links.length) links ∧
      chooseComponents o links links.length ∈
        List.range' 2 (links.length - 2) ∧
      (∀ k ∈ List.range' 2 (links.length - 2),
        o.bic (chooseComponents o links links.length) links ≤
          o.bic k links) ∧
      (∀ j < links.length,
        (cluster_weights o links t).1.getD j 0 =
          clusterMean links (cluster_weights o links t).2
            ((cluster_weights o links t).2.getD j 0)) ∧
      (cluster_weights o links t).1.dedup.length ≤
        (cluster_weights o links t).2.dedup.length) ∧
    (links.length = 2 → cluster_weights o links t = (links, [0, 1])) ∧
    (links.length = 1 → cluster_weights o links t = (links, [0])) ∧
    (∀ (m : Mat) (bvec : List ℚ), (∀ row ∈ m, row.length = cols m) →
      (∀ j < cols m,
        column (elimMat o m bvec).1 j =
          (cluster_weights o (column m j) (bvec.getD j 0)).1) ∧
      (elimMat o m bvec).2 =
        (List.range (cols m)).map
          (fun j => (cluster_weights o (column m j) (bvec.getD j 0)).2)) ∧
    (∀ (ws : List Mat) (bs : List (List ℚ)) (i : Nat), i < ws.length →
      i < bs.length →
      (eliminate_weights o ws bs).1.getD i [] =
        (elimMat o (ws.getD i []) (bs.getD i [])).1 ∧
      (eliminate_weights o ws bs).2.1 = bs ∧
      (eliminate_weights o ws bs).2.2.getD i [] =
        (elimMat o (ws.getD i []) (bs.getD i [])).2) := by
  have hcw2 : 2 < links.length →
      cluster_weights o links t =
        (avgLoop (o.predict (chooseComponents o links links.length) links)
          links
          (uniqueSorted
            (o.predict (chooseComponents o links links.length) links)),
         o.predict (chooseComponents o links links.length) links) := by
    intro h2
    rw [cluster_weights]
    simp only [if_pos h2]
  refine ⟨?_, ?_, ?_, ?_, ?_⟩
  · intro h2
    obtain ⟨hmem, hmin⟩ := chooseComponents_spec o links links.length h2
    rw [hcw2 h2]
    have hlen : (o.predict (chooseComponents o links links.length)
        links).length = links.length := hpred _ _
    refine ⟨rfl, hmem, hmin, ?_, ?_⟩
    · intro j hj
      exact avgLoop_uniqueSorted_getD _ links hlen j hj
    · rw [avgLoop_eq_map _ links hlen]
      exact dedup_length_map_le _ _
  · intro he
    rw [cluster_weights]
    simp only [if_neg (by omega : ¬ 2 < links.length), if_pos he]
  · intro he
    rw [cluster_weights]
    simp only [if_neg (by omega : ¬ 2 < links.length),
      if_neg (by omega : ¬ links.length = 2), he]
    rfl
  · intro m bvec hrect
    exact elimMat_spec o bvec m hpred hrect
  · intro ws bs i hiw hib
    have hzip : i < (ws.zip bs).length := by
      rw [List.length_zip]
      omega
    refine ⟨?_, rfl, ?_⟩
    · rw [eliminate_weights]
      show ((ws.zip bs).map (fun p => (elimMat o p.1 p.2).1)).getD i [] = _
      rw [List.getD_eq_getElem _ _ (by rw [List.length_map]; exact hzip),
        List.getElem_map, List.getElem_zip,
        List.getD_eq_getElem ws _ hiw, List.getD_eq_getElem bs _ hib]
    · rw [eliminate_weights]
      show ((ws.zip bs).map (fun p => (elimMat o p.1 p.2).2)).getD i [] = _
      rw [List.getD_eq_getElem _ _ (by rw [List.length_map]; exact hzip),
        List.getElem_map, List.getElem_zip,
        List.getD_eq_getElem ws _ hiw, List.getD_eq_getElem bs _ hib]

theorem witOracle_hpred : ∀ k l, (witOracle.predict k l).length = l.length :=
  fun _ _ => List.length_replicate _ _

/-- Witness for `clustering_spec` at two concrete columns. -/
theorem clustering_spec_witness :
    (cluster_weights witOracle [4, 4, 4] 0).2 =
      witOracle.predict (chooseComponents witOracle [4, 4, 4] 3) [4, 4, 4] ∧
    cluster_weights witOracle [2, 7] 0 = ([2, 7], [0, 1]) :=
  ⟨by
    have h := ((clustering_spec witOracle witOracle_hpred [4, 4, 4] 0).1
      (by decide)).1
    simpa using h,
   (clustering_spec witOracle witOracle_hpred [2, 7] 0).2.1 (by decide)⟩

/-- C9 counterexample: with a second weight matrix of 2 columns, the
hardcoded `np.zeros((3, 1))` cannot be row-stacked under it, so
`add_hidden_units` fails instead of appending 3 zero rows matching the
matrix's column count. -/
theorem add_hidden_units_counterexample :
    add_hidden_units [[[5]], [[1, 2]]] [[3]] [["a"], ["b"], ["c"], ["d"]] =
      none ∧
    cols [[(1 : ℚ), 2]] = 2 := by
  exact ⟨by decide, by decide⟩

/-- C9 amended: when the second weight matrix has exactly one column (the
only case the hardcoded 3×1 zero block fits), `add_hidden_units` appends
3 zero columns to the first weight matrix, the rows `[[0], [0], [0]]` to
the second, 3 zero bias entries, and `head1, head2, head3` to the second
and third layer-name lists, leaving all pre-existing entries unchanged;
with any other column count it fails with a shape error. -/
theorem add_hidden_units_spec (w1 w2 : Mat) (wr : List Mat) (b : List ℚ)
    (br : List (List ℚ)) (l0 l1 l2 : List String)
    (lr : List (List String)) :
    (cols w2 = 1 →
      add_hidden_units (w1 :: w2 :: wr) (b :: br) (l0 :: l1 :: l2 :: lr) =
        some
          ((w1.map (fun row => row ++ [0, 0, 0])) ::
             (w2 ++ [[0], [0], [0]]) :: wr,
           (b ++ [0, 0, 0]) :: br,
           l0 :: (l1 ++ ["head1", "head2", "head3"]) ::
             (l2 ++ ["head1", "head2", "head3"]) :: lr)) ∧
    (cols w2 ≠ 1 →
      add_hidden_units (w1 :: w2 :: wr) (b :: br) (l0 :: l1 :: l2 :: lr) =
        none) := by
  constructor
  · intro hc
    simp only [add_hidden_units, List.getElem?_cons_zero,
      List.getElem?_cons_succ, if_pos hc]
    rfl
  · intro hc
    simp only [add_hidden_units, List.getElem?_cons_zero,
      List.getElem?_cons_succ, if_neg hc]

/-- Witness for `add_hidden_units_spec` on a single-output network. -/
theorem add_hidden_units_spec_witness :
    cols [[(7 : ℚ)]] = 1 ∧
    add_hidden_units [[[5]], [[7]]] [[3]] [["a"], ["b"], ["c"]] =
      some
        ([[[5, 0, 0, 0]], [[7], [0], [0], [0]]],
         [[3, 0, 0, 0]],
         [["a"], ["b", "head1", "head2", "head3"],
          ["c", "head1", "head2", "head3"]]) := by
  constructor
  · decide
  · have h := (add_hidden_units_spec [[(5 : ℚ)]] [[7]] [] [3] [] ["a"] ["b"]
      ["c"] []).1 (by decide)
    rw [h]
    decide

theorem removeFirst_eq (xs : List String) (u : String) :
    removeFirst xs u = if u ∈ xs then some (xs.erase u) else none := by
  induction xs with
  | nil => rfl
  | cons x xs ih =>
    show (if x = u then some xs
      else match removeFirst xs u with
        | some ys => some (x :: ys)
        | none => none) = _
    by_cases hx : x = u
    · subst hx
      rw [if_pos rfl, if_pos (List.mem_cons_self _ _), List.erase_cons_head]
    · rw [if_neg hx, ih]
      by_cases hu : u ∈ xs
      · rw [if_pos hu, if_pos (List.mem_cons_of_mem _ hu)]
        show _ = some ((x :: xs).erase u)
        rw [List.erase_cons, if_neg (by simpa using hx)]
      · rw [if_neg hu, if_neg (by
          intro hm
          rcases List.mem_cons.mp hm with hm | hm
          · exact hx hm.symm
          · exact hu hm)]

theorem removeSeen_ok (F : List String) :
    ∀ (us acc : List String), acc.Nodup →
    (∀ u ∈ us, u ∈ F → (u ∈ acc ∧ us.count u = 1)) →
    removeSeen F acc us =
      .ok (acc.filter (fun a => !(a ∈ us ∧ a ∈ F : Bool))) := by
  intro us
  induction us with
  | nil =>
    intro acc _ _
    simp [removeSeen]
  | cons u us ih =>
    intro acc hnd hcond
    by_cases huF : u ∈ F
    · obtain ⟨hacc, hcount⟩ := hcond u (List.mem_cons_self _ _) huF
      have hnotus : u ∉ us := by
        intro hm
        rw [List.count_cons_self] at hcount
        have : 0 < us.count u := List.count_pos_iff.mpr hm
        omega
      show (if u ∈ F then
        match removeFirst acc u with
        | some acc2 => removeSeen F acc2 us
        | none => Except.error PyErr.valueError
        else removeSeen F acc us) = _
      rw [if_pos huF, removeFirst_eq, if_pos hacc]
      show removeSeen F (acc.erase u) us = _
      rw [ih (acc.erase u) (hnd.erase u) ?_]
      · congr 1
        rw [hnd.erase_eq_filter u, List.filter_filter]
        apply List.filter_congr
        intro a _
        by_cases hau : a = u
        · subst hau
          simp [huF]
        · simp only [List.mem_cons]
          by_cases haus : a ∈ us <;> by_cases haF : a ∈ F <;>
            simp [hau, haus, haF]
      · intro v hv hvF
        obtain ⟨h1, h2⟩ := hcond v (List.mem_cons_of_mem _ hv) hvF
        have hvu : v ≠ u := by
          intro he
          exact hnotus (he ▸ hv)
        refine ⟨(hnd.mem_erase_iff).mpr ⟨hvu, h1⟩, ?_⟩
        rw [List.count_cons_of_ne hvu] at h2
        exact h2
    · show (if u ∈ F then
        match removeFirst acc u with
        | some acc2 => removeSeen F acc2 us
        | none => Except.error PyErr.valueError
        else removeSeen F acc us) = _
      rw [if_neg huF]
      rw [ih acc hnd ?_]
      · congr 1
        apply List.filter_congr
        intro a _
        by_cases hau : a = u
        · subst hau
          simp [huF]
        · simp only [List.mem_cons]
          by_cases haus : a ∈ us <;> by_cases haF : a ∈ F <;>
            simp [hau, haus, haF]
      · intro v hv hvF
        obtain ⟨h1, h2⟩ := hcond v (List.mem_cons_of_mem _ hv) hvF
        have hvu : v ≠ u := by
          intro he
          exact huF (he ▸ hvF)
        rw [List.count_cons_of_ne hvu] at h2
        exact ⟨h1, h2⟩

theorem removeSeen_error (F : List String) :
    ∀ (us acc : List String), acc.Nodup →
    ¬(∀ u ∈ us, u ∈ F → (u ∈ acc ∧ us.count u = 1)) →
    removeSeen F acc us = .error .valueError := by
  intro us
  induction us with
  | nil =>
    intro acc _ hc
    exact absurd (by simp) hc
  | cons u us ih =>
    intro acc hnd hc
    by_cases huF : u ∈ F
    · by_cases hacc : u ∈ acc
      · show (if u ∈ F then
          match removeFirst acc u with
          | some acc2 => removeSeen F acc2 us
          | none => Except.error PyErr.valueError
          else removeSeen F acc us) = _
        rw [if_pos huF, removeFirst_eq, if_pos hacc]
        show removeSeen F (acc.erase u) us = _
        apply ih (acc.erase u) (hnd.erase u)
        intro hcond
        apply hc
        intro v hv hvF
        rcases List.mem_cons.mp hv with rfl | hv
        · refine ⟨hacc, ?_⟩
          have hnotus : v ∉ us := by
            intro hm
            have := (hcond v hm hvF).1
            exact (hnd.mem_erase_iff).mp this |>.1 rfl
          rw [List.count_cons_self, List.count_eq_zero_of_not_mem hnotus]
        · obtain ⟨h1, h2⟩ := hcond v hv hvF
          obtain ⟨hvu, h1'⟩ := (hnd.mem_erase_iff).mp h1
          rw [List.count_cons_of_ne hvu]
          exact ⟨h1', h2⟩
      · show (if u ∈ F then
          match removeFirst acc u with
          | some acc2 => removeSeen F acc2 us
          | none => Except.error PyErr.valueError
          else removeSeen F acc us) = _
        rw [if_pos huF, removeFirst_eq, if_neg hacc]
    · show (if u ∈ F then
        match removeFirst acc u with
        | some acc2 => removeSeen F acc2 us
        | none => Except.error PyErr.valueError
        else removeSeen F acc us) = _
      rw [if_neg huF]
      apply ih acc hnd
      intro hcond
      apply hc
      intro v hv hvF
      rcases List.mem_cons.mp hv with rfl | hv
      · exact absurd hvF huF
      · obtain ⟨h1, h2⟩ := hcond v hv hvF
        have hvu : v ≠ u := by
          intro he
          exact huF (he ▸ hvF)
        rw [List.count_cons_of_ne hvu]
        exact ⟨h1, h2⟩

/-- C10: with distinct dataset feature names, `add_input_units` completes
exactly when every feature name occurs at most once in the layer-name
stack, in which case it appends the unreferenced feature names to the
first layer and a matching block of zero rows to the first weight matrix;
as soon as some feature name occurs twice (e.g. in two different layers),
the second `list.remove` raises an unhandled `ValueError` — none of the
spec's named errors. -/
theorem add_input_units_spec (F : List String) (hnd : F.Nodup) :
    (∀ (w : Mat) (wr : List Mat) (l0 : List String)
        (lr : List (List String)),
      (∀ f ∈ F, ((l0 :: lr) : List (List String)).flatten.count f ≤ 1) →
      add_input_units (w :: wr) (l0 :: lr) F =
        .ok ((w ++ zerosMat
              (F.filter
                (fun f => !(f ∈ ((l0 :: lr) :
                  List (List String)).flatten : Bool))).length (cols w)) :: wr,
             (l0 ++ F.filter
                (fun f => !(f ∈ ((l0 :: lr) :
                  List (List String)).flatten : Bool))) :: lr)) ∧
    (∀ (ws : List Mat) (ls : List (List String)),
      (∃ f ∈ F, 2 ≤ ls.flatten.count f) →
      add_input_units ws ls F = .error .valueError) ∧
    (∀ (ws : List Mat) (ls : List (List String)) res,
      add_input_units ws ls F = .ok res → ∀ f ∈ F, ls.flatten.count f ≤ 1) := by
  have herr : ∀ (ls : List (List String)),
      (∃ f ∈ F, 2 ≤ ls.flatten.count f) →
      removeSeen F F ls.flatten = .error .valueError := by
    intro ls ⟨f, hfF, hf2⟩
    apply removeSeen_error F ls.flatten F hnd
    intro hcond
    have hmem : f ∈ ls.flatten := by
      have : 0 < ls.flatten.count f := by omega
      exact List.count_pos_iff.mp this
    have := (hcond f hmem hfF).2
    omega
  refine ⟨?_, ?_, ?_⟩
  · intro w wr l0 lr hle
    have hok : removeSeen F F ((l0 :: lr) : List (List String)).flatten =
        .ok (F.filter (fun a => !(a ∈ ((l0 :: lr) :
          List (List String)).flatten ∧ a ∈ F : Bool))) := by
      apply removeSeen_ok F _ F hnd
      intro u hu huF
      refine ⟨huF, ?_⟩
      have h1 := hle u huF
      have h2 : 0 < ((l0 :: lr) : List (List String)).flatten.count u :=
        List.count_pos_iff.mpr hu
      omega
    rw [add_input_units, hok]
    have hfilter : F.filter (fun a => !(a ∈ ((l0 :: lr) :
          List (List String)).flatten ∧ a ∈ F : Bool)) =
        F.filter (fun f => !(f ∈ ((l0 :: lr) :
          List (List String)).flatten : Bool)) := by
      apply List.filter_congr
      intro a haF
      by_cases hm : a ∈ ((l0 :: lr) : List (List String)).flatten <;>
        simp [hm, haF]
    rw [hfilter]
  · intro ws ls hex
    rw [add_input_units, herr ls hex]
  · intro ws ls res hok f hf
    by_contra hgt
    have : 2 ≤ ls.flatten.count f := by omega
    rw [add_input_units, herr ls ⟨f, hf, this⟩] at hok
    cases hok

/-- Witness for `add_input_units_spec`: features `p, q` with `p`
referenced once across the layers and `q` unreferenced. -/
theorem add_input_units_spec_witness :
    add_input_units [[[0, 0], [0, 0]]] [["p", "x"], ["y"]] ["p", "q"] =
      .ok ([[[0, 0], [0, 0], [0, 0]]], [["p", "x", "q"], ["y"]]) := by
  have h := (add_input_units_spec ["p", "q"] (by decide)).1
    [[0, 0], [0, 0]] [] ["p", "x"] [["y"]] (by decide)
  rw [h]
  simp only [Except.ok.injEq]
  decide

theorem joinPlus_cons (t : String) (ts : List String) :
    joinPlus (t :: ts) = t ++ joinPlusTail ts := by
  induction ts generalizing t with
  | nil =>
    show t = t ++ ""
    rw [String.append_empty]
  | cons t' ts ih =>
    show t ++ " + " ++ joinPlus (t' :: ts) = _
    rw [ih t', joinPlusTail]
    simp only [String.append_assoc]

theorem ne_empty_of_length_pos (s : String) (h : 0 < s.length) : s ≠ "" := by
  intro he
  rw [he] at h
  exact absurd h (by decide)

theorem termString_ne_empty (cur : List String) (w : List ℚ)
    (ids : List Nat) (id : Nat) : termString cur w ids id ≠ "" := by
  apply ne_empty_of_length_pos
  rw [termString]
  simp only [String.length_append]
  have h6 : (" * nt(" : String).length = 6 := rfl
  rw [h6]
  omega

theorem sepFold_acc (ts : List String) :
    ∀ acc : String, acc ≠ "" →
    ts.foldl (fun body t => (if body ≠ "" then body ++ " + " else body) ++ t)
      acc = acc ++ joinPlusTail ts := by
  induction ts with
  | nil =>
    intro acc _
    rw [List.foldl_nil, joinPlusTail, String.append_empty]
  | cons t ts ih =>
    intro acc hacc
    rw [List.foldl_cons, if_pos hacc]
    have hne : acc ++ " + " ++ t ≠ "" := by
      apply ne_empty_of_length_pos
      simp only [String.length_append]
      have h3 : (" + " : String).length = 3 := rfl
      rw [h3]
      omega
    rw [ih _ hne, joinPlusTail]
    simp only [String.append_assoc]

theorem sepFold_eq_joinPlus (ts : List String) (hne : ∀ s ∈ ts, s ≠ "") :
    ts.foldl (fun body t => (if body ≠ "" then body ++ " + " else body) ++ t)
      "" = joinPlus ts := by
  match ts with
  | [] => rfl
  | t :: ts =>
    rw [List.foldl_cons, if_neg (fun h => h rfl), joinPlus_cons]
    have h0 : ("" : String) ++ t = t := by
      rw [String.empty_append]
    rw [h0]
    exact sepFold_acc ts t (hne t (List.mem_cons_self _ _))

theorem layerPairs_eq (nw : Nat) :
    layerPairs nw (2 * nw) = (List.range nw).map (fun i => (i, 2 * i)) := by
  rw [layerPairs]
  have h2 : (2 * nw + 1) / 2 = nw := by omega
  rw [h2]
  have hz := List.zip_map' (fun i : Nat => i) (fun i : Nat => 2 * i)
    (List.range nw)
  have hid : (List.range nw).map (fun i : Nat => i) = List.range nw := by
    simp
  rw [hid] at hz
  exact hz

/-- C8 counterexample: with cluster ids `[1, 0]` (id 1 appears first),
the extracted terms appear in ascending id order — cluster 0's term
`20.0 * nt(Y)` first — not in first-appearance order. -/
theorem extraction_order_counterexample :
    network_to_rule [[[10], [20]]] [[0]] [[[1, 0]]] [["X", "Y"], ["H"]] =
      ["H :- 0.0 < 20.0 * nt(Y) + 10.0 * nt(X)"] ∧
    network_to_rule [[[10], [20]]] [[0]] [[[1, 0]]] [["X", "Y"], ["H"]] ≠
      ["H :- 0.0 < 10.0 * nt(X) + 20.0 * nt(Y)"] := by
  exact ⟨by decide, by decide⟩

/-- C8 amended: when the layer stack has exactly two name lists per weight
matrix, `network_to_rule` emits exactly one rule string per output unit of
every layer, of the form `Head :- bias < Σ clusterWeight * nt(...)`, with
exactly one term per distinct cluster id of that unit; the terms appear
in ascending cluster-id order (the iteration order of a CPython set of
small ints), not in first-appearance order. -/
theorem network_to_rule_spec (weights : List Mat) (biases : List (List ℚ))
    (cluster_indices : List (List (List Nat)))
    (layers : List (List String))
    (hlay : layers.length = 2 * weights.length) :
    network_to_rule weights biases cluster_indices layers =
      (List.range weights.length).flatMap (fun i =>
        (List.range (cols (weights.getD i []))).map (fun j =>
          specUnitRule weights biases cluster_indices layers i (2 * i) j)) ∧
    (network_to_rule weights biases cluster_indices layers).length =
      ((List.range weights.length).map
        (fun i => cols (weights.getD i []))).sum ∧
    (∀ ids : List Nat, List.Sorted (· < ·) (uniqueSorted ids)) ∧
    (∀ (ids : List Nat) (a : Nat), a ∈ uniqueSorted ids ↔ a ∈ ids) := by
  have hsorted : ∀ ids : List Nat, List.Sorted (· < ·) (uniqueSorted ids) :=
    fun ids =>
      (List.sorted_insertionSort (· ≤ ·) ids.dedup).lt_of_le
        (uniqueSorted_nodup ids)
  have hmain : network_to_rule weights biases cluster_indices layers =
      (List.range weights.length).flatMap (fun i =>
        (List.range (cols (weights.getD i []))).map (fun j =>
          specUnitRule weights biases cluster_indices layers i (2 * i) j)) := by
    rw [network_to_rule, hlay, layerPairs_eq, List.flatMap_map]
    congr 1
    funext i
    apply List.map_congr_left
    intro j _
    rw [specUnitRule]
    congr 1
    rw [← List.foldl_map
      (termString (layers.getD (2 * i) [])
        (column (weights.getD i []) j)
        ((cluster_indices.getD i []).getD j []))
      (fun body t => (if body ≠ "" then body ++ " + " else body) ++ t)]
    apply sepFold_eq_joinPlus
    intro s hs
    obtain ⟨id, _, rfl⟩ := List.mem_map.mp hs
    exact termString_ne_empty _ _ _ _
  refine ⟨hmain, ?_, hsorted, fun ids a => mem_uniqueSorted ids a⟩
  rw [hmain, List.length_flatMap]
  congr 1
  apply List.map_congr_left
  intro i _
  simp only [Function.comp_apply, List.length_map, List.length_range]

/-- Witness for `network_to_rule_spec` at a concrete one-layer network. -/
theorem network_to_rule_spec_witness :
    network_to_rule [[[10], [20]]] [[0]] [[[1, 0]]] [["X", "Y"], ["H"]] =
      (List.range 1).flatMap (fun i =>
        (List.range (cols ([[[(10 : ℚ)], [20]]].getD i []))).map (fun j =>
          specUnitRule [[[10], [20]]] [[0]] [[[1, 0]]] [["X", "Y"], ["H"]]
            i (2 * i) j)) :=
  (network_to_rule_spec [[[10], [20]]] [[0]] [[[1, 0]]]
    [["X", "Y"], ["H"]] (by decide)).1

end KBANN
